import Mathlib

/-!
Verification of the swyss Swiss-tournament core (src/src/lib.rs) against its
natural-language specification.

Shallow embedding conventions:
* `Rc<RefCell<Player>>` handles are modelled as natural-number identifiers into
  an explicit heap (`Heap := List Player`, identifier = index).  Rust's
  `PartialEq for Player` compares uuids; in the model the stored identifier
  plays that role.
* `u32`/`u8` counters are modelled as `Nat`; no counter in this code can come
  near `2^32` for any roster a driver can build, and the `u8` score arithmetic
  in `end_match` happens only after the individual range checks bound each
  summand by 3, so no wrap-around is reachable.
* `f64` percentages are modelled as exact rationals; the only place an `f64`
  operation leaves the rational world is `opponents_*_win_percentage`, where a
  division by a zero opponent count produces NaN.  That is modelled by
  `Option ℚ` (`none` = NaN), and `partial_cmp(..).unwrap_or(Equal)` by `pcmp`
  below, which sends any comparison involving `none` to `.eq`.
* Randomness (`shuffle`, `thread_rng`) is modelled by passing the concrete
  post-shuffle list as an explicit argument.
* `Uuid::new_v4` for pairings is modelled by a fresh counter threaded through
  the state.
-/

/-- Model of the Rust `Player` struct: identity plus cumulative statistics.
`opponents` holds the identifiers of the players in the opponent-history
vector, in push order. -/
structure Player where
  uuid : Nat
  name : String
  match_points : Nat
  game_points : Nat
  matches_played : Nat
  games_played : Nat
  opponents : List Nat
  has_bye : Bool
deriving DecidableEq, Repr

/-- The default player record, used only as the out-of-range fallback of heap
lookups (never reachable in the modelled traces). -/
def defaultPlayer : Player :=
  { uuid := 0, name := "", match_points := 0, game_points := 0,
    matches_played := 0, games_played := 0, opponents := [], has_bye := false }

/-- The heap of player records; a player handle is an index into this list. -/
abbrev Heap := List Player

/-- Dereference a player handle (Rust: `rc.borrow()`). -/
def getP (σ : Heap) (i : Nat) : Player :=
  List.getD σ i defaultPlayer

/-- Write through a player handle (Rust: `rc.borrow_mut()` assignment). -/
def setP (σ : Heap) (i : Nat) (p : Player) : Heap :=
  List.set σ i p

/-- Mutate the player behind handle `i` by `f`. -/
def updP (σ : Heap) (i : Nat) (f : Player → Player) : Heap :=
  setP σ i (f (getP σ i))

/-- Rust `Player::new`: fresh zeroed record. -/
def Player.new (uuid : Nat) (name : String) : Player :=
  { uuid := uuid, name := name, match_points := 0, game_points := 0,
    matches_played := 0, games_played := 0, opponents := [], has_bye := false }

/-- Rust `Player::lose_game`. -/
def Player.loseGame (p : Player) : Player :=
  { p with games_played := p.games_played + 1 }

/-- Rust `Player::draw_game`. -/
def Player.drawGame (p : Player) : Player :=
  { p with games_played := p.games_played + 1, game_points := p.game_points + 1 }

/-- Rust `Player::win_game`. -/
def Player.winGame (p : Player) : Player :=
  { p with games_played := p.games_played + 1, game_points := p.game_points + 3 }

/-- Rust `Player::lose_match`. -/
def Player.loseMatch (p : Player) : Player :=
  { p with matches_played := p.matches_played + 1 }

/-- Rust `Player::draw_match`. -/
def Player.drawMatch (p : Player) : Player :=
  { p with matches_played := p.matches_played + 1, match_points := p.match_points + 1 }

/-- Rust `Player::win_match`. -/
def Player.winMatch (p : Player) : Player :=
  { p with matches_played := p.matches_played + 1, match_points := p.match_points + 3 }

/-- Rust `Player::bye`: two won games, one won match, and the bye flag. -/
def Player.bye (p : Player) : Player :=
  { p.winGame.winGame.winMatch with has_bye := true }

/-!
Rational arithmetic: `Rat.add`/`Rat.div` do not reduce inside the Lean
kernel, so the model writes the (exact) rational arithmetic of the
percentages through `mkRat`; the lemmas `addQ_eq`, `divQN_eq`, `mkRatN_eq`,
`mwpQ_eq` … below prove these are literally `+` and `/` on `ℚ`.
-/

/-- Exact rational addition, written via `mkRat`. -/
def addQ (x y : ℚ) : ℚ := mkRat (x.num * y.den + y.num * x.den) (x.den * y.den)

/-- Exact division of a rational by a natural, written via `mkRat`. -/
def divQN (q : ℚ) (n : Nat) : ℚ := mkRat q.num (q.den * n)

/-- `a / b` for naturals as an exact rational. -/
def mkRatN (a b : Nat) : ℚ := mkRat a b

/-- Rust `Player::match_win_percentage`: `match_points / (3 * matches_played)`
floored at `1/3`, and exactly `1/3` when no match was played. -/
def mwpQ (p : Player) : ℚ :=
  if p.matches_played = 0 then mkRatN 1 3
  else max (mkRatN 1 3) (mkRatN p.match_points (3 * p.matches_played))

/-- Rust `Player::game_win_percentage`: same formula over game counters. -/
def gwpQ (p : Player) : ℚ :=
  if p.games_played = 0 then mkRatN 1 3
  else max (mkRatN 1 3) (mkRatN p.game_points (3 * p.games_played))

/-- The rational value of the opponents' match-win-percentage average; matches
the Rust sum/len computation whenever the opponent list is nonempty. -/
def omwpVal (σ : Heap) (p : Player) : ℚ :=
  divQN (p.opponents.foldl (fun acc o => addQ acc (mwpQ (getP σ o))) 0) p.opponents.length

/-- Rust `Player::opponents_match_win_percentage`, with the `f64` NaN produced
by the division by a zero opponent count modelled as `none`. -/
def omwpOpt (σ : Heap) (p : Player) : Option ℚ :=
  if p.opponents.length = 0 then none else some (omwpVal σ p)

/-- The rational value of the opponents' game-win-percentage average. -/
def ogwpVal (σ : Heap) (p : Player) : ℚ :=
  divQN (p.opponents.foldl (fun acc o => addQ acc (gwpQ (getP σ o))) 0) p.opponents.length

/-- Rust `Player::opponents_game_win_percentage`, NaN modelled as `none`. -/
def ogwpOpt (σ : Heap) (p : Player) : Option ℚ :=
  if p.opponents.length = 0 then none else some (ogwpVal σ p)

/-- Three-way comparison on a linear order; models Rust `Ord::cmp` on integers
and `PartialOrd::partial_cmp` on (non-NaN) floats. -/
def cmpLin {K : Type} [LinearOrder K] (x y : K) : Ordering :=
  if x < y then .lt else if x = y then .eq else .gt

/-- Rust `a.partial_cmp(&b).unwrap_or(Ordering::Equal)` on possibly-NaN `f64`
values: any comparison involving NaN (`none`) yields `Equal`. -/
def pcmp : Option ℚ → Option ℚ → Ordering
  | some x, some y => cmpLin x y
  | _, _ => .eq

/-- Model of the Rust `Pairing` struct (the two handles plus the identifier). -/
structure Pairing where
  uuid : Nat
  home : Nat
  away : Nat
deriving DecidableEq, Repr

/-- Rust `Pairing::new`: generates the identifier, appends each side to the
other's opponent history (the only place opponent history is mutated), and
stores both handles.  `fresh` models `Uuid::new_v4()`. -/
def Pairing.new (σ : Heap) (fresh : Nat) (home away : Nat) : Heap × Pairing :=
  let σ1 := updP σ home (fun p => { p with opponents := p.opponents ++ [away] })
  let σ2 := updP σ1 away (fun p => { p with opponents := p.opponents ++ [home] })
  (σ2, { uuid := fresh, home := home, away := away })

/-- Which side of a pairing; Rust `PlayerSide`. -/
inductive PlayerSide | home | away

/-- Rust `Pairing::win_game`: the winning side gets `win_game`, the other
`lose_game`. -/
def Pairing.winGame (pr : Pairing) (σ : Heap) (side : PlayerSide) : Heap :=
  match side with
  | .home => updP (updP σ pr.home Player.winGame) pr.away Player.loseGame
  | .away => updP (updP σ pr.away Player.winGame) pr.home Player.loseGame

/-- Rust `Pairing::draw_game`: both sides get `draw_game`. -/
def Pairing.drawGame (pr : Pairing) (σ : Heap) : Heap :=
  updP (updP σ pr.home Player.drawGame) pr.away Player.drawGame

/-- Rust `Pairing::end_match`.  The four `check_range` guards run before any
mutation and return the offending value (`OutOfRangeError::outside_value`);
on success the three game loops run, then the match is awarded by comparing
the two scores. -/
def Pairing.endMatch (pr : Pairing) (σ : Heap) (home_score away_score drawn : Nat) :
    Except Nat Heap :=
  if 3 ≤ home_score then .error home_score
  else if 3 ≤ away_score then .error away_score
  else if 4 ≤ drawn then .error drawn
  else if home_score + away_score + drawn < 1 then .error (home_score + away_score + drawn)
  else if 4 ≤ home_score + away_score + drawn then .error (home_score + away_score + drawn)
  else
    let σ1 := Nat.repeat (fun s => pr.winGame s .home) home_score σ
    let σ2 := Nat.repeat (fun s => pr.winGame s .away) away_score σ1
    let σ3 := Nat.repeat (fun s => pr.drawGame s) drawn σ2
    let σ4 :=
      if away_score < home_score then
        updP (updP σ3 pr.home Player.winMatch) pr.away Player.loseMatch
      else if home_score < away_score then
        updP (updP σ3 pr.home Player.loseMatch) pr.away Player.winMatch
      else
        updP (updP σ3 pr.home Player.drawMatch) pr.away Player.drawMatch
    .ok σ4

/-!
Stable sorting

Rust's `Vec::sort_by` is a stable sort; for slices shorter than its merge
threshold (which covers every sort this crate performs on small rosters, and
in particular every concrete list appearing below) it is exactly the
insertion sort that shifts the new element left while the comparator returns
`Greater` on (left neighbour, new element).  `insRev` performs one such
insertion on the *reversed* accumulator (head = right end), `stableSortBy`
folds it over the input.  For total-preorder comparators every stable sort
agrees with this one.
-/

/-- Insert `x` into the reversed sorted accumulator: walk from the right end
of the sorted run while the neighbour compares `Greater` to `x`. -/
def insRev {β : Type} (c : β → β → Ordering) (x : β) : List β → List β
  | [] => [x]
  | y :: ys => if c y x = .gt then y :: insRev c x ys else x :: y :: ys

/-- Fold of `insRev` over the input, accumulator kept reversed. -/
def sortAux {β : Type} (c : β → β → Ordering) : List β → List β → List β
  | racc, [] => racc
  | racc, x :: xs => sortAux c (insRev c x racc) xs

/-- Stable sort under comparator `c` (ascending in the comparator: `c a b =
.lt` puts `a` before `b`; equal elements keep their input order). -/
def stableSortBy {β : Type} (c : β → β → Ordering) (l : List β) : List β :=
  (sortAux c [] l).reverse

/-!
Tournament
-/

/-- Model of the Rust `Tournament` struct.  `pairings` models the
`HashMap<Uuid, Pairing>` as an association list with distinct keys (only
`get`, `insert` of fresh keys, `len` and `clear` are used, so the map order
is irrelevant); `fresh` models the `Uuid::new_v4` source for pairings;
the `ThreadRng` field is modelled by explicit shuffle arguments. -/
structure Tournament where
  rounds : Nat
  current_round : Nat
  players : List Nat
  pairings : List (Nat × Pairing)
  needs_bye : Bool
  fresh : Nat
deriving Repr

/-- Rust `PairingResultError`. -/
inductive PairingResultError
  | notFound (uuid : Nat)
  | outOfRange (v : Nat)
deriving DecidableEq, Repr

/-- Mathematical `ceil(log2 n)`: the least `r` with `n ≤ 2 ^ r` (and `0` for
`n = 0`).  Such an `r` always exists below `n + 1` since `n ≤ 2 ^ n`. -/
def ceilLog2 (n : Nat) : Nat :=
  (List.range (n + 1)).findIdx (fun r => n ≤ 2 ^ r)

/-- Rust `Tournament::new`.  The source computes
`(num_players as f64).log2().ceil() as u32`; `f64` `log2` is exact on powers
of two and its rounding never crosses an integer for any roster size a
process could hold, so this equals the mathematical ceiling log
`ceilLog2`. -/
def Tournament.new (players : List Nat) : Tournament :=
  { rounds := ceilLog2 players.length
    current_round := 0
    players := players
    pairings := []
    needs_bye := if players.length % 2 = 0 then false else true
    fresh := 0 }

/-- Rust `Iterator::min_by_key` on match points: left fold that keeps the
first element attaining the minimum (replaces only on strictly smaller). -/
def minByMatchPoints (σ : Heap) (l : List Nat) : Option Nat :=
  l.foldl
    (fun acc x =>
      match acc with
      | none => some x
      | some m => if (getP σ x).match_points < (getP σ m).match_points then some x else some m)
    none

/-- Rust `Tournament::grant_bye`.  `shuffled` is the roster after the
in-place shuffle (a permutation of `st.players`); the roster keeps that
order afterwards.  Among players without a bye, the first one with minimum
match points receives the bye (`Player::bye`) and is removed from the
roster (Rust removes the first `PartialEq`-equal entry, i.e. the first
occurrence of the handle).  Returns the removed handle, the new state and
the new heap. -/
def Tournament.grantBye (st : Tournament) (σ : Heap) (shuffled : List Nat) :
    Option Nat × Tournament × Heap :=
  if st.needs_bye then
    match minByMatchPoints σ (shuffled.filter (fun x => !(getP σ x).has_bye)) with
    | some bye =>
        (some bye, { st with players := shuffled.erase bye }, updP σ bye Player.bye)
    | none => (none, { st with players := shuffled }, σ)
  else (none, st, σ)

/-- The inner candidate scan of `Tournament::next_round`: `i` walks from
`queue.len() - 1` down to `0`; the first index whose player is not in
`opps` (home's opponent history) is removed from the queue and returned.
If the scan reaches `i = 0` without finding one, it returns `queue[0]`
without removing it. -/
def scanFrom (opps : List Nat) (queue : List Nat) : Nat → Nat × List Nat
  | 0 =>
      let away := queue.getD 0 0
      if !(opps.contains away) then (away, queue.eraseIdx 0) else (away, queue)
  | i + 1 =>
      let away := queue.getD (i + 1) 0
      if !(opps.contains away) then (away, queue.eraseIdx (i + 1))
      else scanFrom opps queue i

/-- The scan started at the top index `queue.len() - 1`. -/
def scanAway (opps : List Nat) (queue : List Nat) : Nat × List Nat :=
  scanFrom opps queue (queue.length - 1)

/-- The `while let Some(home) = player_queue.pop()` loop of
`Tournament::next_round`: pop the queue's last element as home; stop if the
queue is then empty; scan for an away candidate; unconditionally build the
pairing, register it and push the `(uuid, home name, away name)` triple.
The loop pops at least one element per iteration, so running it with
`fuel = queue.length` (as `pairAttempt` does) performs every iteration the
Rust loop performs; the `fuel = 0` base case coincides with the empty-queue
exit. -/
def pairLoop (σ : Heap) (fresh : Nat) (fuel : Nat) (queue : List Nat)
    (pairs : List (Nat × Pairing)) (ret : List (Nat × String × String)) :
    Heap × Nat × List (Nat × Pairing) × List (Nat × String × String) :=
  match fuel with
  | 0 => (σ, fresh, pairs, ret)
  | fuel' + 1 =>
      match queue.getLast? with
      | none => (σ, fresh, pairs, ret)
      | some home =>
          let rest := queue.dropLast
          if rest.length = 0 then (σ, fresh, pairs, ret)
          else
            let scanned := scanAway (getP σ home).opponents rest
            let away := scanned.1
            let rest2 := scanned.2
            let built := Pairing.new σ fresh home away
            let σ2 := built.1
            let pr := built.2
            pairLoop σ2 (fresh + 1) fuel' rest2
              (pairs ++ [(fresh, pr)])
              (ret ++ [(fresh, (getP σ2 home).name, (getP σ2 away).name)])

/-- One iteration of the `while repeat` body of `Tournament::next_round`:
copy the roster (given here post-shuffle as `attempt`), stably sort it
ascending by match points, clear the tables and run the pairing loop. -/
def pairAttempt (σ : Heap) (fresh : Nat) (attempt : List Nat) :
    Heap × Nat × List (Nat × Pairing) × List (Nat × String × String) :=
  let queue := stableSortBy
    (fun a b => cmpLin (getP σ a).match_points (getP σ b).match_points) attempt
  pairLoop σ fresh queue.length queue [] []

/-- The retry loop of `Tournament::next_round`, with one explicit shuffle
outcome per attempt.  A failed attempt keeps the heap it produced (the Rust
code clears only `self.pairings` and `ret`; the opponent-history pushes done
by `Pairing::new` persist) and keeps consuming identifiers.  Returns `none`
if the supplied attempts are exhausted (the source would keep drawing fresh
shuffles). -/
def attemptsLoop (players : List Nat) (σ : Heap) (fresh : Nat) :
    List (List Nat) →
    Option (Heap × Nat × List (Nat × Pairing) × List (Nat × String × String))
  | [] => none
  | attempt :: rest =>
      let r := pairAttempt σ fresh attempt
      if r.2.2.1.length = players.length / 2 then some r
      else attemptsLoop players r.1 r.2.1 rest

/-- Rust `Tournament::next_round`.  Arguments: `byeShuffled` is the shuffle
outcome used by `grant_bye` (ignored for even rosters), `attempts` the
successive shuffle outcomes of the retry loop.  Result `none` models attempt
exhaustion; `some (st, σ, none)` models the `current_round > rounds`
terminal return; `some (st, σ, some ret)` the returned pairing list (the
source additionally shuffles `ret` in place before returning — presentation
order only, so the model returns it in construction order). -/
def Tournament.nextRound (st : Tournament) (σ : Heap) (byeShuffled : List Nat)
    (attempts : List (List Nat)) :
    Option (Tournament × Heap × Option (List (Nat × String × String))) :=
  let st1 := { st with current_round := st.current_round + 1 }
  if st1.rounds < st1.current_round then some (st1, σ, none)
  else
    let gb := st1.grantBye σ byeShuffled
    let bye := gb.1
    let st2 := gb.2.1
    let σ2 := gb.2.2
    match attemptsLoop st2.players σ2 st2.fresh attempts with
    | none => none
    | some (σ3, fresh3, pairs, ret) =>
        let players3 :=
          match bye with
          | some b => st2.players ++ [b]
          | none => st2.players
        some ({ st2 with players := players3, pairings := pairs, fresh := fresh3 },
              σ3, some ret)

/-- Rust `Tournament::end_match`: look up the pairing by identifier and
delegate; the pairing table itself is never modified (`&self`). -/
def Tournament.endMatch (st : Tournament) (σ : Heap)
    (uuid home_score away_score drawn : Nat) : Except PairingResultError Heap :=
  match (st.pairings.find? (fun e => e.1 == uuid)) with
  | some e =>
      match e.2.endMatch σ home_score away_score drawn with
      | .ok σ2 => .ok σ2
      | .error v => .error (.outOfRange v)
  | none => .error (.notFound uuid)

/-- The four successive stable sorts of Rust `Tournament::ranking`, applied
to the (post-shuffle) roster `l`: by OGWP descending, then GWP descending,
then OMWP descending, then match points descending.  The `f64` comparators
`b.partial_cmp(&a).unwrap_or(Equal)` are `pcmp` for the possibly-NaN
opponent averages and `cmpLin` for the always-defined GWP and `u32` match
points. -/
def rankingSorts (σ : Heap) (l : List Nat) : List Nat :=
  let s1 := stableSortBy (fun a b => pcmp (ogwpOpt σ (getP σ b)) (ogwpOpt σ (getP σ a))) l
  let s2 := stableSortBy (fun a b => cmpLin (gwpQ (getP σ b)) (gwpQ (getP σ a))) s1
  let s3 := stableSortBy (fun a b => pcmp (omwpOpt σ (getP σ b)) (omwpOpt σ (getP σ a))) s2
  stableSortBy (fun a b => cmpLin (getP σ b).match_points (getP σ a).match_points) s3

/-- Laws of a total-preorder comparator (what a `sort_by` comparator must
satisfy for sorting to be meaningful). -/
structure CmpLaws {β : Type} (c : β → β → Ordering) : Prop where
  symm : ∀ a b, c a b = (c b a).swap
  lt_trans : ∀ {a b d}, c a b = .lt → c b d = .lt → c a d = .lt
  eq_trans : ∀ {a b d}, c a b = .eq → c b d = .eq → c a d = .eq
  lt_of_lt_of_eq : ∀ {a b d}, c a b = .lt → c b d = .eq → c a d = .lt
  lt_of_eq_of_lt : ∀ {a b d}, c a b = .eq → c b d = .lt → c a d = .lt

/-- The strict order a stable sort establishes: strictly smaller under the
comparator, or tied and already ordered by the input relation `Q`. -/
def stableRel {β : Type} (c : β → β → Ordering) (Q : β → β → Prop) (a b : β) : Prop :=
  c a b = .lt ∨ (c a b = .eq ∧ Q a b)

/-- Tag every element of a list with its position (starting at `n`). -/
def tagFrom {β : Type} : Nat → List β → List (β × Nat)
  | _, [] => []
  | n, x :: xs => (x, n) :: tagFrom (n + 1) xs

/-- A comparator on tagged elements that ignores the tag. -/
def liftC {β : Type} (c : β → β → Ordering) : β × Nat → β × Nat → Ordering :=
  fun p q => c p.1 q.1

/-!
C7 / C8: ranking models and counterexample rosters
-/

/-- The single lexicographic stable sort the spec equates the cascade with:
one stable sort under the comparator on `(match_points, OMWP, GWP, OGWP)`,
all descending, each component compared exactly as the code compares it
(`pcmp` for the possibly-NaN opponent averages). -/
def rankingLexModel (σ : Heap) (l : List Nat) : List Nat :=
  stableSortBy (fun a b =>
    ((cmpLin (getP σ b).match_points (getP σ a).match_points).then
      ((pcmp (omwpOpt σ (getP σ b)) (omwpOpt σ (getP σ a))).then
        ((cmpLin (gwpQ (getP σ b)) (gwpQ (getP σ a))).then
          (pcmp (ogwpOpt σ (getP σ b)) (ogwpOpt σ (getP σ a))))))) l

/-- Modelled from the spec: the sentinel value §4.5 prescribes for the
OMWP/OGWP of a competitor with no opponents — "treated as a defined sentinel
(e.g., the floor value) rather than evaluated" — i.e. the `1/3` floor. -/
def sentinelQ (o : Option ℚ) : ℚ := o.getD (mkRatN 1 3)

/-- Modelled from the spec: the ranking §4.5 describes, with the undefined
opponent averages replaced by the `1/3`-floor sentinel (the four stable
sorts otherwise as in the code).  The code does *not* implement this; it is
the comparison point for C7. -/
def rankingSentinelSpec (σ : Heap) (l : List Nat) : List Nat :=
  let s1 := stableSortBy (fun a b =>
    cmpLin (sentinelQ (ogwpOpt σ (getP σ b))) (sentinelQ (ogwpOpt σ (getP σ a)))) l
  let s2 := stableSortBy (fun a b => cmpLin (gwpQ (getP σ b)) (gwpQ (getP σ a))) s1
  let s3 := stableSortBy (fun a b =>
    cmpLin (sentinelQ (omwpOpt σ (getP σ b))) (sentinelQ (omwpOpt σ (getP σ a)))) s2
  stableSortBy (fun a b => cmpLin (getP σ b).match_points (getP σ a).match_points) s3

/-- A player record with the given counters (used for concrete rosters). -/
def mkP (id mp m gp g : Nat) (opps : List Nat) : Player :=
  { uuid := id, name := "", match_points := mp, matches_played := m,
    game_points := gp, games_played := g, opponents := opps, has_bye := false }

/-- C7 roster: handle 0 is a byed player (2-0 award, empty history); handle 1
beat handle 2 2-0; handle 2 lost 0-2 and was then byed. -/
def heapC7 : Heap := [mkP 0 3 1 6 2 [], mkP 1 3 1 6 2 [2], mkP 2 3 2 6 4 [1]]

/-- C8 roster: handle 0 has an empty opponent history (NaN averages), GWP
1/2; handle 1 has GWP 2/5 and a perfect-MWP opponent; handle 2 has GWP 3/5
and a floored-MWP opponent; all match points equal. -/
def heapC8 : Heap :=
  [mkP 0 3 1 3 2 [], mkP 1 3 1 6 5 [3], mkP 2 3 1 9 5 [4],
   mkP 3 3 1 0 0 [], mkP 4 0 1 0 0 []]

/-!
Concrete driver traces

The following definitions replay a full 16-player tournament exactly as a
driver would: `Tournament::new`, then for each round `next_round` followed by
`Tournament::end_match` on every returned pairing identifier.  Every match is
recorded as a 1-1-1 draw, so all match points stay equal and *any* queue
order is a possible outcome of the shuffle-then-stable-sort step.  Player
names are irrelevant to the claims and left empty.
-/

/-- The initial heap: sixteen fresh players, handle `i` holding uuid `i`. -/
def heap16 : Heap := (List.range 16).map (fun i => Player.new i "")

/-- The initial tournament over handles `0..15`. -/
def tourn16 : Tournament := Tournament.new (List.range 16)

/-- The driver records every returned pairing as a 1-1-1 draw through
`Tournament::end_match`. -/
def recordDraws (st : Tournament) (σ : Heap) (ret : List (Nat × String × String)) : Heap :=
  ret.foldl
    (fun s e =>
      match st.endMatch s e.1 1 1 1 with
      | .ok s2 => s2
      | .error _ => s) σ

/-- One full driver round: `next_round` with the given shuffle outcome (one
attempt), then record all results as draws.  If the round did not return a
pairing list the state is left unchanged (never happens in the traces). -/
def stepRound (x : Tournament × Heap) (q : List Nat) : Tournament × Heap :=
  match x.1.nextRound x.2 [] [q] with
  | some (st, σ, some ret) => (st, recordDraws st σ ret)
  | _ => x

/-- The home/away handle pairs a round attempt would register, starting from
state `x` with shuffle outcomes `qs` (empty if no list was returned). -/
def roundPairs (x : Tournament × Heap) (qs : List (List Nat)) : List (Nat × Nat) :=
  match x.1.nextRound x.2 [] qs with
  | some (st, _, some _) => st.pairings.map (fun (e : Nat × Pairing) => (e.2.home, e.2.away))
  | _ => []

/-- A queue in which the pop/scan loop pairs exactly the requested
`(home, away)` pairs in order: the Rust `Vec` is `[.., a2, h2, a1, h1]`. -/
def queueOf (ps : List (Nat × Nat)) : List Nat :=
  ps.foldl (fun acc p => [p.2, p.1] ++ acc) []

/-- Trace A, rounds 1-3: matchings chosen so that afterwards player 0 has
opponent history `[1, 2, 3]` while players 1, 2, 3 are pairwise unplayed. -/
def qA1 : List Nat := queueOf [(0,1),(2,4),(3,5),(6,7),(8,9),(10,11),(12,13),(14,15)]

/-- Trace A, round-2 queue. -/
def qA2 : List Nat := queueOf [(0,2),(1,6),(3,8),(4,10),(5,12),(7,14),(9,11),(13,15)]

/-- Trace A, round-3 queue. -/
def qA3 : List Nat := queueOf [(0,3),(2,1),(4,6),(5,8),(7,9),(10,13),(11,14),(12,15)]

/-- Trace A, round-4 shuffle outcome: the six pairs `(14,4) (15,5) (6,8)
(7,10) (9,12) (11,13)` pair off normally, leaving `[3, 1, 2, 0]`; player 0
is popped and every remaining candidate is already in its history. -/
def qA4 : List Nat := [3, 1, 2, 0, 13, 11, 12, 9, 10, 7, 8, 6, 5, 15, 4, 14]

/-- Tournament state and heap of trace A after three recorded rounds. -/
def traceA3 : Tournament × Heap :=
  stepRound (stepRound (stepRound (tourn16, heap16) qA1) qA2) qA3

/-- Trace A round 4 as `next_round` returns it. -/
def traceA4 : Option (Tournament × Heap × Option (List (Nat × String × String))) :=
  traceA3.1.nextRound traceA3.2 [] [qA4]

/-- The home/away pairs registered (and returned) by trace A's round 4. -/
def traceA4Pairs : List (Nat × Nat) := roundPairs traceA3 [qA4]

/-- The length of the pairing list returned by trace A's round 4 (`0` if no
list was returned). -/
def traceA4RetLen : Nat :=
  match traceA4 with
  | some (_, _, some ret) => ret.length
  | _ => 0

/-- Trace B, rounds 1-3: a round robin inside each block `{0..3}`, `{4..7}`,
`{8..11}`, `{12..15}`, so that each block is fully played out. -/
def qB1 : List Nat := queueOf [(0,1),(2,3),(4,5),(6,7),(8,9),(10,11),(12,13),(14,15)]

/-- Trace B, round-2 queue. -/
def qB2 : List Nat := queueOf [(0,2),(1,3),(4,6),(5,7),(8,10),(9,11),(12,14),(13,15)]

/-- Trace B, round-3 queue. -/
def qB3 : List Nat := queueOf [(0,3),(1,2),(4,7),(5,6),(8,11),(9,10),(12,15),(13,14)]

/-- Trace B, round-4 first shuffle outcome: six cross-block pairs pair off,
then the tail `[3, 1, 2, 0]` produces three fallback rematches `(0,3)`,
`(2,3)`, `(1,3)` — nine pairings, so the attempt is discarded. -/
def qB4a : List Nat := [3, 1, 2, 0, 8, 4, 12, 5, 9, 6, 13, 7, 14, 10, 15, 11]

/-- Trace B, round-4 second shuffle outcome: a clean cross-block matching
that the (polluted) histories still allow; the attempt is accepted. -/
def qB4b : List Nat := [14, 11, 15, 10, 12, 9, 13, 8, 7, 3, 6, 2, 5, 1, 4, 0]

/-- Trace B after one recorded round. -/
def traceB1 : Tournament × Heap := stepRound (tourn16, heap16) qB1

/-- Trace B after two recorded rounds. -/
def traceB2 : Tournament × Heap := stepRound traceB1 qB2

/-- Tournament state and heap of trace B after three recorded rounds. -/
def traceB3 : Tournament × Heap := stepRound traceB2 qB3

/-- Trace B round 4 as `next_round` returns it (two attempts: one discarded,
one accepted). -/
def traceB4 : Option (Tournament × Heap × Option (List (Nat × String × String))) :=
  traceB3.1.nextRound traceB3.2 [] [qB4a, qB4b]

/-- The home/away pairs registered by trace B's accepted round-4 attempt. -/
def traceB4Pairs : List (Nat × Nat) := roundPairs traceB3 [qB4a, qB4b]

/-- Player 3's opponent history after trace B's round 4 (`[]` if the round
returned nothing). -/
def traceB4OppsOf3 : List Nat :=
  match traceB4 with
  | some (_, σ, some _) => (getP σ 3).opponents
  | _ => []

/-- How many pairings of a round involve handle `i`. -/
def pairsInvolving (ps : List (Nat × Nat)) (i : Nat) : Nat :=
  ps.countP (fun e => e.1 == i || e.2 == i)

/-- The identifiers of the pairing list returned by trace A's round 4. -/
def traceA4RetIds : List Nat :=
  match traceA4 with
  | some (_, _, some ret) => ret.map (fun (e : Nat × String × String) => e.1)
  | _ => []

/-- The keys of the pairing table registered by trace A's round 4. -/
def traceA4TableIds : List Nat :=
  match traceA4 with
  | some (st, _, some _) => st.pairings.map (fun (e : Nat × Pairing) => e.1)
  | _ => []

set_option maxRecDepth 1000000

/-- C1 (code bug): `next_round` can return an accepted pairing list that is
not a perfect matching over the active roster.  In the replayed 16-player
tournament (all results recorded as 1-1-1 draws through
`Tournament::end_match`, so every shuffle outcome used is a genuine
permutation of the roster, as asserted below), round 4 with shuffle `qA4`
returns a list of 8 pairings — accepted, since 8 = 16 / 2 — in which active
player 3 appears twice (as the away side of `(0,3)` and of `(2,3)`: the
failed scan for home 0 paired it without removing it from the queue) and
active player 1 appears in no pairing at all. -/
theorem c1_next_round_not_perfect_matching :
    qA4.Perm traceA3.1.players ∧
    traceA3.1.players.length = 16 ∧
    traceA4RetLen = 8 ∧
    traceA4RetIds = traceA4TableIds ∧
    traceA4Pairs = [(14,4),(15,5),(6,8),(7,10),(9,12),(11,13),(0,3),(2,3)] ∧
    (1 ∈ traceA3.1.players ∧ pairsInvolving traceA4Pairs 1 = 0) ∧
    (3 ∈ traceA3.1.players ∧ pairsInvolving traceA4Pairs 3 = 2) := by
  decide

/-- C2 (code bug): when the candidate scan finds no queue member absent from
home's opponent history, the code does *not* leave home unpaired: it pairs
home with `queue[0]` — a player already in home's history — and leaves that
player in the queue.  In trace A's round 4, home 0 (history `[1, 2, 3]`)
faces the remaining queue `[3, 1, 2]`, every member of which is in its
history; a pairing `(0, 3)` is nevertheless created (a rematch), player 3
stays in the queue and is paired again in `(2, 3)`, and the round is
accepted and returned rather than left incomplete. -/
theorem c2_failed_scan_creates_rematch_pairing :
    qA4.Perm traceA3.1.players ∧
    (getP traceA3.2 0).opponents = [1, 2, 3] ∧
    (0, 3) ∈ traceA4Pairs ∧
    (2, 3) ∈ traceA4Pairs ∧
    traceA4RetLen = 8 := by
  decide

/-- C3 (code bug): opponent-history entries made by `Pairing::new` during a
round attempt that is discarded and retried are *not* rolled back — the
retry loop clears only the pairing table and the result list.  In trace B,
the pairing lists actually returned by the four rounds pair player 3 exactly
with 2, 1, 0 and 7 (one pairing per round, as the four asserted round
tables show), yet after round 4 — whose first attempt produced nine
pairings, among them the fallback rematches `(0,3)`, `(2,3)`, `(1,3)`, and
was discarded — player 3's opponent history holds seven entries,
`[2, 1, 0, 0, 2, 1, 7]`, the middle three left over from the discarded
attempt.  The tournament's identifier counter also shows the nine discarded
pairings (41 = 24 + 9 + 8 identifiers consumed for 32 returned pairings). -/
theorem c3_discarded_attempt_pollutes_history :
    roundPairs (tourn16, heap16) [qB1] =
      [(0,1),(2,3),(4,5),(6,7),(8,9),(10,11),(12,13),(14,15)] ∧
    roundPairs traceB1 [qB2] =
      [(0,2),(1,3),(4,6),(5,7),(8,10),(9,11),(12,14),(13,15)] ∧
    roundPairs traceB2 [qB3] =
      [(0,3),(1,2),(4,7),(5,6),(8,11),(9,10),(12,15),(13,14)] ∧
    traceB4Pairs = [(0,4),(1,5),(2,6),(3,7),(8,13),(9,12),(10,15),(11,14)] ∧
    traceB4OppsOf3 = [2, 1, 0, 0, 2, 1, 7] ∧
    (match traceB4 with | some (st, _, _) => st.fresh | none => 0) = 41 := by
  decide

/-!
Heap access lemmas
-/

theorem length_setP (σ : Heap) (i : Nat) (p : Player) : (setP σ i p).length = σ.length :=
  List.length_set σ i p

theorem getP_setP_eq {σ : Heap} {i : Nat} (hi : i < σ.length) (p : Player) :
    getP (setP σ i p) i = p := by
  induction σ generalizing i with
  | nil => simp at hi
  | cons x xs ih =>
      cases i with
      | zero => simp [getP, setP]
      | succ j =>
          have hj : j < xs.length := by simpa using hi
          simpa [getP, setP] using ih hj

theorem getP_setP_ne {σ : Heap} {i j : Nat} (hij : i ≠ j) (p : Player) :
    getP (setP σ i p) j = getP σ j := by
  induction σ generalizing i j with
  | nil => simp [getP, setP]
  | cons x xs ih =>
      cases i with
      | zero =>
          cases j with
          | zero => exact absurd rfl hij
          | succ k => simp [getP, setP]
      | succ i' =>
          cases j with
          | zero => simp [getP, setP]
          | succ k =>
              have : i' ≠ k := fun h => hij (by rw [h])
              simpa [getP, setP] using ih this

theorem length_updP (σ : Heap) (i : Nat) (f : Player → Player) :
    (updP σ i f).length = σ.length :=
  length_setP σ i _

theorem getP_updP_eq {σ : Heap} {i : Nat} (hi : i < σ.length) (f : Player → Player) :
    getP (updP σ i f) i = f (getP σ i) :=
  getP_setP_eq hi _

theorem getP_updP_ne {σ : Heap} {i j : Nat} (hij : i ≠ j) (f : Player → Player) :
    getP (updP σ i f) j = getP σ j :=
  getP_setP_ne hij _

/-- Effect of iterating a step that updates two distinct in-range handles. -/
theorem repeat_updP_pair {i j : Nat} (f g : Player → Player) (hij : i ≠ j) :
    ∀ (n : Nat) (σ : Heap), i < σ.length → j < σ.length →
      (Nat.repeat (fun s => updP (updP s i f) j g) n σ).length = σ.length ∧
      getP (Nat.repeat (fun s => updP (updP s i f) j g) n σ) i = f^[n] (getP σ i) ∧
      getP (Nat.repeat (fun s => updP (updP s i f) j g) n σ) j = g^[n] (getP σ j) := by
  intro n
  induction n with
  | zero => intro σ hi hj; simp [Nat.repeat]
  | succ m ih =>
      intro σ hi hj
      obtain ⟨hlen, hgi, hgj⟩ := ih σ hi hj
      have hi2 : i < (Nat.repeat (fun s => updP (updP s i f) j g) m σ).length := by
        rw [hlen]; exact hi
      have hj2 : j < (Nat.repeat (fun s => updP (updP s i f) j g) m σ).length := by
        rw [hlen]; exact hj
      have hj3 : j < (updP (Nat.repeat (fun s => updP (updP s i f) j g) m σ) i f).length := by
        rw [length_updP]; exact hj2
      refine ⟨?_, ?_, ?_⟩
      · show (updP (updP _ i f) j g).length = σ.length
        rw [length_updP, length_updP, hlen]
      · show getP (updP (updP _ i f) j g) i = f^[m + 1] (getP σ i)
        rw [getP_updP_ne (Ne.symm hij), getP_updP_eq hi2, hgi,
          Function.iterate_succ_apply']
      · show getP (updP (updP _ i f) j g) j = g^[m + 1] (getP σ j)
        rw [getP_updP_eq hj3, getP_updP_ne hij, hgj, Function.iterate_succ_apply']

theorem iterate_winGame (n : Nat) (p : Player) :
    Player.winGame^[n] p =
      { p with game_points := p.game_points + 3 * n, games_played := p.games_played + n } := by
  induction n with
  | zero => simp
  | succ m ih =>
      rw [Function.iterate_succ_apply', ih]
      simp [Player.winGame]
      omega

theorem iterate_loseGame (n : Nat) (p : Player) :
    Player.loseGame^[n] p = { p with games_played := p.games_played + n } := by
  induction n with
  | zero => simp
  | succ m ih =>
      rw [Function.iterate_succ_apply', ih]
      simp [Player.loseGame]
      omega

theorem iterate_drawGame (n : Nat) (p : Player) :
    Player.drawGame^[n] p =
      { p with game_points := p.game_points + n, games_played := p.games_played + n } := by
  induction n with
  | zero => simp
  | succ m ih =>
      rw [Function.iterate_succ_apply', ih]
      simp [Player.drawGame]
      omega

/-- Characterization of the `end_match` validation guards (shared helper). -/
theorem endMatch_error_characterization (pr : Pairing) (σ : Heap) (h a d : Nat) :
    ((∃ e, pr.endMatch σ h a d = .error e) ↔
      (2 < h ∨ 2 < a ∨ 3 < d ∨ h + a + d < 1 ∨ 3 < h + a + d)) ∧
    (∀ e, pr.endMatch σ h a d = .error e →
      ((e = h ∧ 2 < h) ∨ (e = a ∧ 2 < a) ∨ (e = d ∧ 3 < d) ∨
        (e = h + a + d ∧ (h + a + d < 1 ∨ 3 < h + a + d)))) := by
  unfold Pairing.endMatch
  split_ifs with h1 h2 h3 h4 h5
  · exact ⟨⟨fun _ => by omega, fun _ => ⟨_, rfl⟩⟩, fun e he => by
      simp only [Except.error.injEq] at he
      omega⟩
  · exact ⟨⟨fun _ => by omega, fun _ => ⟨_, rfl⟩⟩, fun e he => by
      simp only [Except.error.injEq] at he
      omega⟩
  · exact ⟨⟨fun _ => by omega, fun _ => ⟨_, rfl⟩⟩, fun e he => by
      simp only [Except.error.injEq] at he
      omega⟩
  · exact ⟨⟨fun _ => by omega, fun _ => ⟨_, rfl⟩⟩, fun e he => by
      simp only [Except.error.injEq] at he
      omega⟩
  · exact ⟨⟨fun _ => by omega, fun _ => ⟨_, rfl⟩⟩, fun e he => by
      simp only [Except.error.injEq] at he
      omega⟩
  · refine ⟨⟨fun he => ?_, fun hc => by omega⟩, fun e he => by simp at he⟩
    obtain ⟨e, he⟩ := he
    simp at he

/-- C4: `Pairing::end_match` fails exactly when a score is out of its range
or the game total is outside `[1, 3]`, and the reported
`OutOfRangeError::outside_value` is the offending value (the first failing
check; the total is reported when the total check fails).  All four guards
run before any mutation, so an error leaves every counter and opponent
history untouched — in the model this is structural: the error branches
return before any heap update is computed. -/
theorem c4_end_match_error_iff (pr : Pairing) (σ : Heap) (h a d : Nat) :
    ((∃ e, pr.endMatch σ h a d = .error e) ↔
      (2 < h ∨ 2 < a ∨ 3 < d ∨ h + a + d < 1 ∨ 3 < h + a + d)) ∧
    (∀ e, pr.endMatch σ h a d = .error e →
      ((e = h ∧ 2 < h) ∨ (e = a ∧ 2 < a) ∨ (e = d ∧ 3 < d) ∨
        (e = h + a + d ∧ (h + a + d < 1 ∨ 3 < h + a + d)))) :=
  endMatch_error_characterization pr σ h a d

/-- Witness for C4 at `(4, 0, 0)`: the call errs reporting `4`. -/
theorem c4_end_match_error_iff_witness :
    (∃ e, Pairing.endMatch ⟨0, 0, 1⟩ heap16 4 0 0 = .error e) ∧
    Pairing.endMatch ⟨0, 0, 1⟩ heap16 4 0 0 = .error 4 := by
  have hc := c4_end_match_error_iff ⟨0, 0, 1⟩ heap16 4 0 0
  exact ⟨hc.1.mpr (by omega), rfl⟩

/-- Effect of a successful `end_match` on the two records (shared helper);
also records that the heap keeps its length. -/
theorem endMatch_success_effects (pr : Pairing) (σ : Heap) (h a d : Nat)
    (hne : pr.home ≠ pr.away) (hhome : pr.home < σ.length) (haway : pr.away < σ.length)
    (hh : h ≤ 2) (ha : a ≤ 2) (hd : d ≤ 3) (hs1 : 1 ≤ h + a + d) (hs2 : h + a + d ≤ 3) :
    ∃ σ2, pr.endMatch σ h a d = .ok σ2 ∧ σ2.length = σ.length ∧
      getP σ2 pr.home =
        { getP σ pr.home with
            game_points := (getP σ pr.home).game_points + (3 * h + d)
            games_played := (getP σ pr.home).games_played + (h + a + d)
            match_points := (getP σ pr.home).match_points +
              (if a < h then 3 else if h < a then 0 else 1)
            matches_played := (getP σ pr.home).matches_played + 1 } ∧
      getP σ2 pr.away =
        { getP σ pr.away with
            game_points := (getP σ pr.away).game_points + (3 * a + d)
            games_played := (getP σ pr.away).games_played + (h + a + d)
            match_points := (getP σ pr.away).match_points +
              (if h < a then 3 else if a < h then 0 else 1)
            matches_played := (getP σ pr.away).matches_played + 1 } := by
  have hwh : (fun s => pr.winGame s .home) =
      fun s => updP (updP s pr.home Player.winGame) pr.away Player.loseGame := rfl
  have hwa : (fun s => pr.winGame s .away) =
      fun s => updP (updP s pr.away Player.winGame) pr.home Player.loseGame := rfl
  have hdg : (fun s => pr.drawGame s) =
      fun s => updP (updP s pr.home Player.drawGame) pr.away Player.drawGame := rfl
  -- phase 1: home wins
  obtain ⟨len1, home1, away1⟩ :=
    repeat_updP_pair Player.winGame Player.loseGame hne h σ hhome haway
  rw [← hwh] at len1 home1 away1
  set σ1 := Nat.repeat (fun s => pr.winGame s .home) h σ with hσ1
  -- phase 2: away wins
  obtain ⟨len2, away2, home2⟩ :=
    repeat_updP_pair Player.winGame Player.loseGame (Ne.symm hne) a σ1
      (len1 ▸ haway) (len1 ▸ hhome)
  rw [← hwa] at len2 away2 home2
  set σ2 := Nat.repeat (fun s => pr.winGame s .away) a σ1 with hσ2
  -- phase 3: draws
  obtain ⟨len3, home3, away3⟩ :=
    repeat_updP_pair Player.drawGame Player.drawGame hne d σ2
      (len2 ▸ len1 ▸ hhome) (len2 ▸ len1 ▸ haway)
  rw [← hdg] at len3 home3 away3
  set σ3 := Nat.repeat (fun s => pr.drawGame s) d σ2 with hσ3
  have hhome3 : pr.home < σ3.length := by rw [len3, len2, len1]; exact hhome
  have haway3 : pr.away < σ3.length := by rw [len3, len2, len1]; exact haway
  have hhome3b : pr.home < (updP σ3 pr.home Player.winMatch).length := by
    rw [length_updP]; exact hhome3
  have phome : getP σ3 pr.home =
      { getP σ pr.home with
          game_points := (getP σ pr.home).game_points + (3 * h + d)
          games_played := (getP σ pr.home).games_played + (h + a + d) } := by
    rw [home3, home2, home1, iterate_winGame, iterate_loseGame, iterate_drawGame]
    simp
    omega
  have paway : getP σ3 pr.away =
      { getP σ pr.away with
          game_points := (getP σ pr.away).game_points + (3 * a + d)
          games_played := (getP σ pr.away).games_played + (h + a + d) } := by
    rw [away3, away2, away1, iterate_loseGame, iterate_winGame, iterate_drawGame]
    simp
    omega
  unfold Pairing.endMatch
  rw [if_neg (by omega), if_neg (by omega), if_neg (by omega), if_neg (by omega),
    if_neg (by omega)]
  simp only [← hσ1, ← hσ2, ← hσ3]
  by_cases hc1 : a < h
  · rw [if_pos hc1]
    refine ⟨_, rfl, ?_, ?_, ?_⟩
    · rw [length_updP, length_updP, len3, len2, len1]
    · rw [getP_updP_ne (Ne.symm hne), getP_updP_eq hhome3, phome]
      simp [Player.winMatch, hc1]
    · rw [getP_updP_eq (by rw [length_updP]; exact haway3), getP_updP_ne hne, paway]
      have hc2 : ¬h < a := by omega
      simp [Player.loseMatch, hc1, hc2]
  · by_cases hc2 : h < a
    · rw [if_neg hc1, if_pos hc2]
      refine ⟨_, rfl, ?_, ?_, ?_⟩
      · rw [length_updP, length_updP, len3, len2, len1]
      · rw [getP_updP_ne (Ne.symm hne), getP_updP_eq hhome3, phome]
        simp [Player.loseMatch, hc1, hc2]
      · rw [getP_updP_eq (by rw [length_updP]; exact haway3), getP_updP_ne hne, paway]
        simp [Player.winMatch, hc2]
    · rw [if_neg hc1, if_neg hc2]
      refine ⟨_, rfl, ?_, ?_, ?_⟩
      · rw [length_updP, length_updP, len3, len2, len1]
      · rw [getP_updP_ne (Ne.symm hne), getP_updP_eq hhome3, phome]
        simp [Player.drawMatch, hc1, hc2]
      · rw [getP_updP_eq (by rw [length_updP]; exact haway3), getP_updP_ne hne, paway]
        simp [Player.drawMatch, hc1, hc2]

/-- C5: on a successful `end_match(home_score, away_score, drawn)`, the home
record gains `3 * home_score + drawn` game points and the away record
`3 * away_score + drawn`; both gain `home_score + away_score + drawn` games
played; then the match award gives the strictly higher score `+3` match
points and the lower `+0` (equal scores: `+1` each), with `+1` matches
played on both sides.  Identity, name, opponent history and bye flag are
untouched (the record-update form of the conclusion says so). -/
theorem c5_end_match_success_effects (pr : Pairing) (σ : Heap) (h a d : Nat)
    (hne : pr.home ≠ pr.away) (hhome : pr.home < σ.length) (haway : pr.away < σ.length)
    (hh : h ≤ 2) (ha : a ≤ 2) (hd : d ≤ 3) (hs1 : 1 ≤ h + a + d) (hs2 : h + a + d ≤ 3) :
    ∃ σ2, pr.endMatch σ h a d = .ok σ2 ∧
      getP σ2 pr.home =
        { getP σ pr.home with
            game_points := (getP σ pr.home).game_points + (3 * h + d)
            games_played := (getP σ pr.home).games_played + (h + a + d)
            match_points := (getP σ pr.home).match_points +
              (if a < h then 3 else if h < a then 0 else 1)
            matches_played := (getP σ pr.home).matches_played + 1 } ∧
      getP σ2 pr.away =
        { getP σ pr.away with
            game_points := (getP σ pr.away).game_points + (3 * a + d)
            games_played := (getP σ pr.away).games_played + (h + a + d)
            match_points := (getP σ pr.away).match_points +
              (if h < a then 3 else if a < h then 0 else 1)
            matches_played := (getP σ pr.away).matches_played + 1 } := by
  obtain ⟨σ2, hok, _, hhome2, haway2⟩ :=
    endMatch_success_effects pr σ h a d hne hhome haway hh ha hd hs1 hs2
  exact ⟨σ2, hok, hhome2, haway2⟩

/-- Witness for C5 at the spec's round-trip instance `end_match(2, 0, 0)` on
fresh players 0 (home) and 1 (away): the winner's deltas are `+3` match
points, `+6` game points, `+1` matches, `+2` games; the loser's are
`+0, +0, +1, +2`. -/
theorem c5_end_match_success_effects_witness :
    ∃ σ2, Pairing.endMatch ⟨0, 0, 1⟩ heap16 2 0 0 = .ok σ2 ∧
      getP σ2 0 =
        { getP heap16 0 with
            game_points := (getP heap16 0).game_points + (3 * 2 + 0)
            games_played := (getP heap16 0).games_played + (2 + 0 + 0)
            match_points := (getP heap16 0).match_points +
              (if 0 < 2 then 3 else if 2 < 0 then 0 else 1)
            matches_played := (getP heap16 0).matches_played + 1 } ∧
      getP σ2 1 =
        { getP heap16 1 with
            game_points := (getP heap16 1).game_points + (3 * 0 + 0)
            games_played := (getP heap16 1).games_played + (2 + 0 + 0)
            match_points := (getP heap16 1).match_points +
              (if 2 < 0 then 3 else if 0 < 2 then 0 else 1)
            matches_played := (getP heap16 1).matches_played + 1 } :=
  c5_end_match_success_effects ⟨0, 0, 1⟩ heap16 2 0 0 (by decide) (by decide) (by decide)
    (by decide) (by decide) (by decide) (by decide) (by decide)

/-- `ceilLog2 n` is the least `r` with `n ≤ 2 ^ r`. -/
theorem ceilLog2_spec (n : Nat) :
    n ≤ 2 ^ ceilLog2 n ∧ ∀ r, n ≤ 2 ^ r → ceilLog2 n ≤ r := by
  have hex : ∃ x ∈ List.range (n + 1), (decide (n ≤ 2 ^ x)) = true := by
    refine ⟨n, ?_, ?_⟩
    · simp [List.mem_range]
    · simp
      exact Nat.le_of_lt (Nat.lt_two_pow n)
  have hlt : List.findIdx (fun r => decide (n ≤ 2 ^ r)) (List.range (n + 1)) <
      (List.range (n + 1)).length := List.findIdx_lt_length_of_exists hex
  constructor
  · have hp := @List.findIdx_getElem _ (fun r => decide (n ≤ 2 ^ r))
      (List.range (n + 1)) hlt
    rw [List.getElem_range] at hp
    simpa [ceilLog2] using hp
  · intro r hr
    by_contra hcon
    push_neg at hcon
    have hrlt : r < List.findIdx (fun r => decide (n ≤ 2 ^ r)) (List.range (n + 1)) := by
      simpa [ceilLog2] using hcon
    have hfalse := List.not_of_lt_findIdx hrlt
    rw [List.getElem_range] at hfalse
    simp at hfalse
    omega

/-- C6: `Tournament::new` with `N` competitors sets `rounds` to the ceiling
of `log2 N` — the least `r` with `N ≤ 2 ^ r` — giving the spec's table
(N = 1 ↦ 0, 2 ↦ 1, 3, 4 ↦ 2, 8 ↦ 3, 13, 16 ↦ 4, 60, 64 ↦ 6), and sets
`needs_bye` exactly for odd `N`. -/
theorem c6_new_rounds_and_bye (players : List Nat) :
    (players.length ≤ 2 ^ (Tournament.new players).rounds ∧
      ∀ r, players.length ≤ 2 ^ r → (Tournament.new players).rounds ≤ r) ∧
    ((Tournament.new players).needs_bye = true ↔ players.length % 2 = 1) ∧
    ((Tournament.new (List.range 1)).rounds = 0 ∧
      (Tournament.new (List.range 2)).rounds = 1 ∧
      (Tournament.new (List.range 3)).rounds = 2 ∧
      (Tournament.new (List.range 4)).rounds = 2 ∧
      (Tournament.new (List.range 8)).rounds = 3 ∧
      (Tournament.new (List.range 13)).rounds = 4 ∧
      (Tournament.new (List.range 16)).rounds = 4 ∧
      (Tournament.new (List.range 60)).rounds = 6 ∧
      (Tournament.new (List.range 64)).rounds = 6) := by
  refine ⟨ceilLog2_spec players.length, ?_, by decide⟩
  show ((if players.length % 2 = 0 then false else true) = true ↔ players.length % 2 = 1)
  constructor
  · intro h
    by_contra hc
    have h0 : players.length % 2 = 0 := by omega
    rw [if_pos h0] at h
    exact Bool.false_ne_true h
  · intro h
    rw [if_neg (by omega)]

/-- Witness for C6 at a 13-player roster: rounds is 4, the least `r` with
`13 ≤ 2 ^ r`, and a bye is needed. -/
theorem c6_new_rounds_and_bye_witness :
    ((List.range 13).length ≤ 2 ^ (Tournament.new (List.range 13)).rounds ∧
      (Tournament.new (List.range 13)).rounds ≤ 4) ∧
    (Tournament.new (List.range 13)).needs_bye = true := by
  have hc := c6_new_rounds_and_bye (List.range 13)
  exact ⟨⟨hc.1.1, hc.1.2 4 (by decide)⟩, hc.2.1.mpr (by decide)⟩

/-- The fold modelling `min_by_key` only ever returns the accumulator or a
list member. -/
theorem minByMatchPoints_mem {σ : Heap} :
    ∀ {l : List Nat} {b : Nat}, minByMatchPoints σ l = some b → b ∈ l := by
  have key : ∀ (l : List Nat) (acc : Option Nat) (b : Nat),
      l.foldl
        (fun acc x =>
          match acc with
          | none => some x
          | some m =>
              if (getP σ x).match_points < (getP σ m).match_points then some x else some m)
        acc = some b → acc = some b ∨ b ∈ l := by
    intro l
    induction l with
    | nil => intro acc b h; exact Or.inl h
    | cons x xs ih =>
        intro acc b h
        simp only [List.foldl_cons] at h
        rcases ih _ b h with h2 | h2
        · cases acc with
          | none =>
              simp at h2
              exact Or.inr (by simp [h2])
          | some m =>
              have h3 : (if (getP σ x).match_points < (getP σ m).match_points
                  then some x else some m) = some b := h2
              by_cases hlt : (getP σ x).match_points < (getP σ m).match_points
              · rw [if_pos hlt] at h3
                simp at h3
                exact Or.inr (by simp [h3])
              · rw [if_neg hlt] at h3
                exact Or.inl h3
        · exact Or.inr (List.mem_cons_of_mem x h2)
  intro l b h
  rcases key l none b h with h2 | h2
  · simp at h2
  · exact h2

/-- C9: `grant_bye` only ever selects a competitor whose `has_bye` flag is
false (it draws its candidate from the roster filtered on `!has_bye`), and
granting the bye both sets the flag and applies the 2-0 match award (+3
match points, +1 match, +6 game points, +2 games) while leaving the opponent
history untouched and every other competitor unchanged.  Since `has_bye` is
never cleared by any operation of the core, no competitor can be selected a
second time — at most one bye per competitor for the whole tournament. -/
theorem c9_grant_bye_selects_fresh_and_sets_flag (st : Tournament) (σ : Heap)
    (shuffled : List Nat) (b : Nat)
    (hb : (st.grantBye σ shuffled).1 = some b) (hlen : b < σ.length) :
    (getP σ b).has_bye = false ∧
    getP (st.grantBye σ shuffled).2.2 b =
      { getP σ b with
          match_points := (getP σ b).match_points + 3
          game_points := (getP σ b).game_points + 6
          matches_played := (getP σ b).matches_played + 1
          games_played := (getP σ b).games_played + 2
          has_bye := true } ∧
    (∀ j, j ≠ b → getP (st.grantBye σ shuffled).2.2 j = getP σ j) := by
  by_cases hnb : st.needs_bye
  · unfold Tournament.grantBye at hb
    rw [if_pos hnb] at hb
    cases hmin : minByMatchPoints σ (shuffled.filter (fun x => !(getP σ x).has_bye)) with
    | none =>
        rw [hmin] at hb
        simp at hb
    | some m =>
        rw [hmin] at hb
        simp at hb
        rw [hb] at hmin
        have hgb : st.grantBye σ shuffled =
            (some b, { st with players := shuffled.erase b }, updP σ b Player.bye) := by
          unfold Tournament.grantBye
          rw [if_pos hnb, hmin]
        rw [hgb]
        have hmem := minByMatchPoints_mem hmin
        have hflag : (getP σ b).has_bye = false := by
          have := List.of_mem_filter hmem
          simpa using this
        refine ⟨hflag, ?_, ?_⟩
        · show getP (updP σ b Player.bye) b = _
          rw [getP_updP_eq hlen]
          simp [Player.bye, Player.winGame, Player.winMatch]
        · intro j hj
          show getP (updP σ b Player.bye) j = getP σ j
          exact getP_updP_ne (Ne.symm hj) _
  · unfold Tournament.grantBye at hb
    rw [if_neg hnb] at hb
    simp at hb

/-- Witness for C9: a fresh 3-player tournament grants the bye to the first
minimum-points non-byed player (handle 0), whose record afterwards shows the
2-0 award and the flag. -/
theorem c9_grant_bye_selects_fresh_and_sets_flag_witness :
    ((Tournament.new [0, 1, 2]).grantBye ((List.range 3).map (fun i => Player.new i ""))
        [0, 1, 2]).1 = some 0 ∧
    (getP ((List.range 3).map (fun i => Player.new i "")) 0).has_bye = false ∧
    getP ((Tournament.new [0, 1, 2]).grantBye ((List.range 3).map (fun i => Player.new i ""))
        [0, 1, 2]).2.2 0 =
      { getP ((List.range 3).map (fun i => Player.new i "")) 0 with
          match_points := (getP ((List.range 3).map (fun i => Player.new i "")) 0).match_points + 3
          game_points := (getP ((List.range 3).map (fun i => Player.new i "")) 0).game_points + 6
          matches_played :=
            (getP ((List.range 3).map (fun i => Player.new i "")) 0).matches_played + 1
          games_played := (getP ((List.range 3).map (fun i => Player.new i "")) 0).games_played + 2
          has_bye := true } := by
  have hc := c9_grant_bye_selects_fresh_and_sets_flag (Tournament.new [0, 1, 2])
    ((List.range 3).map (fun i => Player.new i "")) [0, 1, 2] 0 (by decide) (by decide)
  exact ⟨by decide, hc.1, hc.2.1⟩

/-- C10: `Tournament::end_match` takes `&self` and never modifies the
pairing table, so after a successful recording the pairing is still
registered under its identifier (only `next_round` clears the table); a
second call with the same identifier and valid scores therefore succeeds as
well and applies the whole match result to both competitors a second time
(all four counters receive the delta twice). -/
theorem c10_end_match_double_apply (st : Tournament) (σ : Heap)
    (u h a d : Nat) (entry : Nat × Pairing)
    (hfind : st.pairings.find? (fun e => e.1 == u) = some entry)
    (hne : entry.2.home ≠ entry.2.away)
    (hhome : entry.2.home < σ.length) (haway : entry.2.away < σ.length)
    (hh : h ≤ 2) (ha : a ≤ 2) (hd : d ≤ 3) (hs1 : 1 ≤ h + a + d) (hs2 : h + a + d ≤ 3) :
    ∃ σ1 σ2, st.endMatch σ u h a d = .ok σ1 ∧ st.endMatch σ1 u h a d = .ok σ2 ∧
      getP σ2 entry.2.home =
        { getP σ entry.2.home with
            game_points := (getP σ entry.2.home).game_points + (3 * h + d) + (3 * h + d)
            games_played := (getP σ entry.2.home).games_played + (h + a + d) + (h + a + d)
            match_points := (getP σ entry.2.home).match_points +
              (if a < h then 3 else if h < a then 0 else 1) +
              (if a < h then 3 else if h < a then 0 else 1)
            matches_played := (getP σ entry.2.home).matches_played + 1 + 1 } ∧
      getP σ2 entry.2.away =
        { getP σ entry.2.away with
            game_points := (getP σ entry.2.away).game_points + (3 * a + d) + (3 * a + d)
            games_played := (getP σ entry.2.away).games_played + (h + a + d) + (h + a + d)
            match_points := (getP σ entry.2.away).match_points +
              (if h < a then 3 else if a < h then 0 else 1) +
              (if h < a then 3 else if a < h then 0 else 1)
            matches_played := (getP σ entry.2.away).matches_played + 1 + 1 } := by
  obtain ⟨σ1, hok1, hlen1, hhome1, haway1⟩ :=
    endMatch_success_effects entry.2 σ h a d hne hhome haway hh ha hd hs1 hs2
  obtain ⟨σ2, hok2, hlen2, hhome2, haway2⟩ :=
    endMatch_success_effects entry.2 σ1 h a d hne (hlen1 ▸ hhome) (hlen1 ▸ haway)
      hh ha hd hs1 hs2
  refine ⟨σ1, σ2, ?_, ?_, ?_, ?_⟩
  · simp [Tournament.endMatch, hfind, hok1]
  · simp [Tournament.endMatch, hfind, hok2]
  · rw [hhome2, hhome1]
  · rw [haway2, haway1]

/-- Witness for C10: with a fresh two-player pairing registered under key 7,
recording 2-1-0 twice succeeds both times and the home record ends with
6 match points, 12 game points, 2 matches and 6 games. -/
theorem c10_end_match_double_apply_witness :
    ∃ σ1 σ2,
      Tournament.endMatch
        { rounds := 1, current_round := 1, players := [0, 1],
          pairings := [(7, ⟨7, 0, 1⟩)], needs_bye := false, fresh := 8 }
        ((List.range 2).map (fun i => Player.new i "")) 7 2 1 0 = .ok σ1 ∧
      Tournament.endMatch
        { rounds := 1, current_round := 1, players := [0, 1],
          pairings := [(7, ⟨7, 0, 1⟩)], needs_bye := false, fresh := 8 }
        σ1 7 2 1 0 = .ok σ2 ∧
      getP σ2 0 =
        { getP ((List.range 2).map (fun i => Player.new i "")) 0 with
            game_points := 12, games_played := 6, match_points := 6, matches_played := 2 } := by
  obtain ⟨σ1, σ2, hok1, hok2, hhome, _⟩ :=
    c10_end_match_double_apply
      { rounds := 1, current_round := 1, players := [0, 1],
        pairings := [(7, ⟨7, 0, 1⟩)], needs_bye := false, fresh := 8 }
      ((List.range 2).map (fun i => Player.new i "")) 7 2 1 0 (7, ⟨7, 0, 1⟩)
      (by decide) (by decide) (by decide) (by decide)
      (by decide) (by decide) (by decide) (by decide) (by decide)
  refine ⟨σ1, σ2, hok1, hok2, ?_⟩
  rw [hhome]
  decide

/-!
Stable-sort theory

Rust's `sort_by` is stable; the spec claims the four-pass cascade of
`ranking()` equals one stable sort under the lexicographic comparator.  The
development below proves the general radix principle for the insertion sort
`stableSortBy` under any comparators that are lawful total preorders
(`CmpLaws`), which covers the non-NaN comparisons of the model; the NaN
comparator `pcmp` is *not* lawful, and a concrete counterexample below shows
the cascade and the lexicographic sort then disagree.
-/

theorem CmpLaws.refl {β : Type} {c : β → β → Ordering} (hc : CmpLaws c) (a : β) :
    c a a = .eq := by
  have h := hc.symm a a
  cases hcc : c a a with
  | lt => rw [hcc] at h; simp [Ordering.swap] at h
  | eq => rfl
  | gt => rw [hcc] at h; simp [Ordering.swap] at h

theorem CmpLaws.gt_iff {β : Type} {c : β → β → Ordering} (hc : CmpLaws c) (a b : β) :
    c a b = .gt ↔ c b a = .lt := by
  rw [hc.symm a b]
  cases c b a <;> simp [Ordering.swap]

theorem CmpLaws.eq_symm {β : Type} {c : β → β → Ordering} (hc : CmpLaws c) {a b : β}
    (h : c a b = .eq) : c b a = .eq := by
  have hs := hc.symm b a
  rw [h] at hs
  simpa [Ordering.swap] using hs

theorem cmpLin_lt_iff {K : Type} [LinearOrder K] {x y : K} : cmpLin x y = .lt ↔ x < y := by
  unfold cmpLin
  split_ifs with h1 h2
  · simpa using h1
  · constructor
    · intro h; exact absurd h (by simp)
    · intro h; exact absurd h (by rw [h2]; exact lt_irrefl y)
  · constructor
    · intro h; exact absurd h (by simp)
    · intro h; exact absurd h h1

theorem cmpLin_eq_iff {K : Type} [LinearOrder K] {x y : K} : cmpLin x y = .eq ↔ x = y := by
  unfold cmpLin
  split_ifs with h1 h2
  · constructor
    · intro h; exact absurd h (by simp)
    · intro h; rw [h] at h1; exact absurd h1 (lt_irrefl y)
  · simpa using h2
  · constructor
    · intro h; exact absurd h (by simp)
    · intro h; exact absurd h h2

theorem cmpLin_gt_iff {K : Type} [LinearOrder K] {x y : K} : cmpLin x y = .gt ↔ y < x := by
  unfold cmpLin
  split_ifs with h1 h2
  · constructor
    · intro h; exact absurd h (by simp)
    · intro h; exact absurd h1 (lt_asymm h)
  · constructor
    · intro h; exact absurd h (by simp)
    · intro h; rw [h2] at h; exact absurd h (lt_irrefl y)
  · simpa using lt_of_le_of_ne (not_lt.mp h1) (Ne.symm h2)

/-- The comparator induced by a key into a linear order is lawful; this is
the shape of every non-NaN comparator in `ranking()`. -/
theorem cmpLaws_key {β K : Type} [LinearOrder K] (k : β → K) :
    CmpLaws (fun a b => cmpLin (k b) (k a)) := by
  constructor
  · intro a b
    rcases lt_trichotomy (k b) (k a) with h | h | h
    · rw [cmpLin_lt_iff.mpr h, (cmpLin_gt_iff (x := k a) (y := k b)).mpr h]
      rfl
    · rw [cmpLin_eq_iff.mpr h, cmpLin_eq_iff.mpr h.symm]
      rfl
    · rw [(cmpLin_gt_iff (x := k b) (y := k a)).mpr h, cmpLin_lt_iff.mpr h]
      rfl
  · intro a b d h1 h2
    exact cmpLin_lt_iff.mpr (lt_trans (cmpLin_lt_iff.mp h2) (cmpLin_lt_iff.mp h1))
  · intro a b d h1 h2
    exact cmpLin_eq_iff.mpr ((cmpLin_eq_iff.mp h2).trans (cmpLin_eq_iff.mp h1))
  · intro a b d h1 h2
    exact cmpLin_lt_iff.mpr ((cmpLin_eq_iff.mp h2) ▸ cmpLin_lt_iff.mp h1)
  · intro a b d h1 h2
    exact cmpLin_lt_iff.mpr ((cmpLin_eq_iff.mp h1).symm ▸ cmpLin_lt_iff.mp h2)

theorem then_eq_lt {x y : Ordering} : x.then y = .lt ↔ x = .lt ∨ (x = .eq ∧ y = .lt) := by
  cases x <;> simp [Ordering.then]

theorem then_eq_eq {x y : Ordering} : x.then y = .eq ↔ x = .eq ∧ y = .eq := by
  cases x <;> simp [Ordering.then]

theorem then_swap {x y : Ordering} : (x.then y).swap = x.swap.then y.swap := by
  cases x <;> cases y <;> rfl

/-- Lexicographic composition of lawful comparators is lawful. -/
theorem CmpLaws.thenLaws {β : Type} {c1 c2 : β → β → Ordering}
    (h1 : CmpLaws c1) (h2 : CmpLaws c2) :
    CmpLaws (fun a b => (c1 a b).then (c2 a b)) := by
  constructor
  · intro a b
    rw [h1.symm a b, h2.symm a b, then_swap]
  · intro a b d ha hb
    rcases then_eq_lt.mp ha with ha1 | ⟨ha1, ha2⟩ <;>
      rcases then_eq_lt.mp hb with hb1 | ⟨hb1, hb2⟩
    · exact then_eq_lt.mpr (Or.inl (h1.lt_trans ha1 hb1))
    · exact then_eq_lt.mpr (Or.inl (h1.lt_of_lt_of_eq ha1 hb1))
    · exact then_eq_lt.mpr (Or.inl (h1.lt_of_eq_of_lt ha1 hb1))
    · exact then_eq_lt.mpr (Or.inr ⟨h1.eq_trans ha1 hb1, h2.lt_trans ha2 hb2⟩)
  · intro a b d ha hb
    obtain ⟨ha1, ha2⟩ := then_eq_eq.mp ha
    obtain ⟨hb1, hb2⟩ := then_eq_eq.mp hb
    exact then_eq_eq.mpr ⟨h1.eq_trans ha1 hb1, h2.eq_trans ha2 hb2⟩
  · intro a b d ha hb
    obtain ⟨hb1, hb2⟩ := then_eq_eq.mp hb
    rcases then_eq_lt.mp ha with ha1 | ⟨ha1, ha2⟩
    · exact then_eq_lt.mpr (Or.inl (h1.lt_of_lt_of_eq ha1 hb1))
    · exact then_eq_lt.mpr (Or.inr ⟨h1.eq_trans ha1 hb1, h2.lt_of_lt_of_eq ha2 hb2⟩)
  · intro a b d ha hb
    obtain ⟨ha1, ha2⟩ := then_eq_eq.mp ha
    rcases then_eq_lt.mp hb with hb1 | ⟨hb1, hb2⟩
    · exact then_eq_lt.mpr (Or.inl (h1.lt_of_eq_of_lt ha1 hb1))
    · exact then_eq_lt.mpr (Or.inr ⟨h1.eq_trans ha1 hb1, h2.lt_of_eq_of_lt ha2 hb2⟩)

theorem insRev_perm {β : Type} (c : β → β → Ordering) (x : β) :
    ∀ l : List β, (insRev c x l).Perm (x :: l) := by
  intro l
  induction l with
  | nil => simp [insRev]
  | cons y ys ih =>
      unfold insRev
      split_ifs with h
      · exact (ih.cons y).trans (List.Perm.swap x y ys)
      · exact List.Perm.refl _

theorem insRev_mem {β : Type} {c : β → β → Ordering} {x a : β} {l : List β}
    (h : a ∈ insRev c x l) : a = x ∨ a ∈ l := by
  have := (insRev_perm c x l).mem_iff.mp h
  simpa using this

theorem sortAux_perm {β : Type} (c : β → β → Ordering) :
    ∀ (rest racc : List β), (sortAux c racc rest).Perm (rest ++ racc) := by
  intro rest
  induction rest with
  | nil => intro racc; simp [sortAux]
  | cons x xs ih =>
      intro racc
      have h1 := ih (insRev c x racc)
      have h2 : (xs ++ insRev c x racc).Perm (xs ++ (x :: racc)) :=
        List.Perm.append_left xs (insRev_perm c x racc)
      have h3 : (xs ++ (x :: racc)).Perm (x :: (xs ++ racc)) := List.perm_middle
      exact ((h1.trans h2).trans h3)

theorem stableSortBy_perm {β : Type} (c : β → β → Ordering) (l : List β) :
    (stableSortBy c l).Perm l := by
  unfold stableSortBy
  have h1 : (sortAux c [] l).Perm l := by
    have h2 := sortAux_perm c l []
    simpa using h2
  exact (List.reverse_perm _).trans h1

/-- Inserting `x` into a reversed-sorted run keeps it reversed-sorted,
provided every element already present precedes `x` in the input order. -/
theorem insRev_pairwise {β : Type} {c : β → β → Ordering} (hc : CmpLaws c)
    {Q : β → β → Prop} {x : β} :
    ∀ {racc : List β}, racc.Pairwise (fun a b => stableRel c Q b a) →
      (∀ p ∈ racc, Q p x) →
      (insRev c x racc).Pairwise (fun a b => stableRel c Q b a) := by
  intro racc
  induction racc with
  | nil => intro _ _; simp [insRev]
  | cons y ys ih =>
      intro hp hQ
      rw [List.pairwise_cons] at hp
      obtain ⟨hyrel, hys⟩ := hp
      unfold insRev
      split_ifs with hgt
      · rw [List.pairwise_cons]
        constructor
        · intro z hz
          rcases insRev_mem hz with rfl | hz2
          · exact Or.inl ((hc.gt_iff y z).mp hgt)
          · exact hyrel z hz2
        · exact ih hys (fun p hp2 => hQ p (List.mem_cons_of_mem y hp2))
      · rw [List.pairwise_cons]
        constructor
        · intro z hz
          show stableRel c Q z x
          rcases List.eq_or_mem_of_mem_cons hz with rfl | hz2
          · cases hcc : c z x with
            | lt => exact Or.inl hcc
            | eq => exact Or.inr ⟨hcc, hQ z (List.mem_cons_self z _)⟩
            | gt => exact absurd hcc hgt
          · have hzy : stableRel c Q z y := hyrel z hz2
            have hyx : c y x = .lt ∨ c y x = .eq := by
              cases hcc : c y x with
              | lt => exact Or.inl rfl
              | eq => exact Or.inr rfl
              | gt => exact absurd hcc hgt
            rcases hzy with hzy | ⟨hzy, _⟩
            · rcases hyx with hyx | hyx
              · exact Or.inl (hc.lt_trans hzy hyx)
              · exact Or.inl (hc.lt_of_lt_of_eq hzy hyx)
            · rcases hyx with hyx | hyx
              · exact Or.inl (hc.lt_of_eq_of_lt hzy hyx)
              · exact Or.inr ⟨hc.eq_trans hzy hyx,
                  hQ z (List.mem_cons_of_mem y hz2)⟩
        · exact List.Pairwise.cons hyrel hys

theorem sortAux_pairwise {β : Type} {c : β → β → Ordering} (hc : CmpLaws c)
    {Q : β → β → Prop} :
    ∀ (rest racc : List β), racc.Pairwise (fun a b => stableRel c Q b a) →
      (∀ p ∈ racc, ∀ q ∈ rest, Q p q) →
      rest.Pairwise Q →
      (sortAux c racc rest).Pairwise (fun a b => stableRel c Q b a) := by
  intro rest
  induction rest with
  | nil => intro racc h _ _; exact h
  | cons x xs ih =>
      intro racc hpair hQ hrest
      rw [List.pairwise_cons] at hrest
      obtain ⟨hxrel, hxs⟩ := hrest
      refine ih (insRev c x racc) ?_ ?_ hxs
      · exact insRev_pairwise hc hpair (fun p hp => hQ p hp x (List.mem_cons_self x xs))
      · intro p hp q hq
        rcases insRev_mem hp with rfl | hp2
        · exact hxrel q hq
        · exact hQ p hp2 q (List.mem_cons_of_mem x hq)

/-- Main pass lemma: a stable sort of an input that is `Pairwise Q` is
`Pairwise` in the refined order `stableRel c Q`. -/
theorem stableSortBy_pairwise {β : Type} {c : β → β → Ordering} (hc : CmpLaws c)
    {Q : β → β → Prop} {l : List β} (hl : l.Pairwise Q) :
    (stableSortBy c l).Pairwise (stableRel c Q) := by
  unfold stableSortBy
  rw [List.pairwise_reverse]
  exact sortAux_pairwise hc l [] (by simp) (by simp) hl

theorem stableRel_asymm {β : Type} {c : β → β → Ordering} (hc : CmpLaws c)
    {Q : β → β → Prop} (hQ : ∀ a b, Q a b → Q b a → False) :
    ∀ a b, stableRel c Q a b → stableRel c Q b a → False := by
  intro a b hab hba
  rcases hab with hab | ⟨hab, hab2⟩
  · rcases hba with hba | ⟨hba, _⟩
    · have := (hc.gt_iff a b).mpr hba
      rw [hab] at this
      exact Ordering.noConfusion this
    · have := hc.eq_symm hba
      rw [hab] at this
      exact Ordering.noConfusion this
  · rcases hba with hba | ⟨hba, hba2⟩
    · have := hc.eq_symm hab
      rw [hba] at this
      exact Ordering.noConfusion this
    · exact hQ a b hab2 hba2

/-- Two sorted permutations of each other under an asymmetric relation are
equal. -/
theorem sorted_unique {β : Type} (R : β → β → Prop)
    (hasym : ∀ a b, R a b → R b a → False) {l1 l2 : List β}
    (hp : l1.Perm l2) (h1 : l1.Pairwise R) (h2 : l2.Pairwise R) : l1 = l2 := by
  haveI : IsAntisymm β R := ⟨fun a b hab hba => (hasym a b hab hba).elim⟩
  exact List.eq_of_perm_of_sorted hp h1 h2

theorem tagFrom_map_fst {β : Type} : ∀ (n : Nat) (l : List β),
    (tagFrom n l).map Prod.fst = l := by
  intro n l
  induction l generalizing n with
  | nil => rfl
  | cons x xs ih => simp [tagFrom, ih]

theorem tagFrom_tag_ge {β : Type} : ∀ {n : Nat} {l : List β} {p : β × Nat},
    p ∈ tagFrom n l → n ≤ p.2 := by
  intro n l
  induction l generalizing n with
  | nil => intro p h; simp [tagFrom] at h
  | cons x xs ih =>
      intro p h
      rcases List.eq_or_mem_of_mem_cons h with rfl | h2
      · exact Nat.le_refl n
      · exact Nat.le_of_succ_le (ih h2)

theorem tagFrom_pairwise {β : Type} : ∀ (n : Nat) (l : List β),
    (tagFrom n l).Pairwise (fun p q => p.2 < q.2) := by
  intro n l
  induction l generalizing n with
  | nil => exact List.Pairwise.nil
  | cons x xs ih =>
      refine List.Pairwise.cons ?_ (ih (n + 1))
      intro q hq
      exact Nat.lt_of_lt_of_le (Nat.lt_succ_self n) (tagFrom_tag_ge hq)

theorem liftC_laws {β : Type} {c : β → β → Ordering} (hc : CmpLaws c) :
    CmpLaws (liftC c) := by
  constructor
  · intro a b; exact hc.symm a.1 b.1
  · intro a b d h1 h2; exact hc.lt_trans h1 h2
  · intro a b d h1 h2; exact hc.eq_trans h1 h2
  · intro a b d h1 h2; exact hc.lt_of_lt_of_eq h1 h2
  · intro a b d h1 h2; exact hc.lt_of_eq_of_lt h1 h2

theorem insRev_map_fst {β : Type} (c : β → β → Ordering) (x : β × Nat) :
    ∀ l : List (β × Nat),
      (insRev (liftC c) x l).map Prod.fst = insRev c x.1 (l.map Prod.fst) := by
  intro l
  induction l with
  | nil => rfl
  | cons y ys ih =>
      show (if liftC c y x = .gt then y :: insRev (liftC c) x ys else x :: y :: ys).map
          Prod.fst = if c y.1 x.1 = .gt then y.1 :: insRev c x.1 (ys.map Prod.fst)
          else x.1 :: y.1 :: ys.map Prod.fst
      by_cases h : c y.1 x.1 = .gt
      · have hl : liftC c y x = .gt := h
        rw [if_pos hl, if_pos h]
        simpa using ih
      · have hl : ¬liftC c y x = .gt := h
        rw [if_neg hl, if_neg h]
        rfl

theorem sortAux_map_fst {β : Type} (c : β → β → Ordering) :
    ∀ (rest racc : List (β × Nat)),
      (sortAux (liftC c) racc rest).map Prod.fst =
        sortAux c (racc.map Prod.fst) (rest.map Prod.fst) := by
  intro rest
  induction rest with
  | nil => intro racc; rfl
  | cons x xs ih =>
      intro racc
      show (sortAux (liftC c) (insRev (liftC c) x racc) xs).map Prod.fst = _
      rw [ih (insRev (liftC c) x racc), insRev_map_fst]
      rfl

theorem stableSortBy_map_fst {β : Type} (c : β → β → Ordering) (t : List (β × Nat)) :
    (stableSortBy (liftC c) t).map Prod.fst = stableSortBy c (t.map Prod.fst) := by
  unfold stableSortBy
  rw [List.map_reverse, sortAux_map_fst]
  rfl

theorem stableRel_then_iff {β : Type} (c c2 : β → β → Ordering) (Q : β → β → Prop)
    (p q : β) :
    stableRel (fun a b => (c a b).then (c2 a b)) Q p q ↔
      stableRel c (stableRel c2 Q) p q := by
  unfold stableRel
  constructor
  · intro h
    rcases h with h | ⟨h, hQ⟩
    · rcases then_eq_lt.mp h with h1 | ⟨h1, h2⟩
      · exact Or.inl h1
      · exact Or.inr ⟨h1, Or.inl h2⟩
    · obtain ⟨h1, h2⟩ := then_eq_eq.mp h
      exact Or.inr ⟨h1, Or.inr ⟨h2, hQ⟩⟩
  · intro h
    rcases h with h | ⟨h1, h2 | ⟨h2, hQ⟩⟩
    · exact Or.inl (then_eq_lt.mpr (Or.inl h))
    · exact Or.inl (then_eq_lt.mpr (Or.inr ⟨h1, h2⟩))
    · exact Or.inr ⟨then_eq_eq.mpr ⟨h1, h2⟩, hQ⟩

/-- The radix principle for four passes of the stable insertion sort: sorting
by the fourth key, then the third, then the second, then the first equals a
single stable sort under the lexicographic composition, for any lawful
comparators. -/
theorem cascade4_eq_lex {β : Type} (c1 c2 c3 c4 : β → β → Ordering)
    (h1 : CmpLaws c1) (h2 : CmpLaws c2) (h3 : CmpLaws c3) (h4 : CmpLaws c4)
    (l : List β) :
    stableSortBy c1 (stableSortBy c2 (stableSortBy c3 (stableSortBy c4 l))) =
      stableSortBy (fun a b => (c1 a b).then ((c2 a b).then ((c3 a b).then (c4 a b)))) l := by
  have htag : l = (tagFrom 0 l).map Prod.fst := (tagFrom_map_fst 0 l).symm
  set t := tagFrom 0 l with ht
  set Q0 : β × Nat → β × Nat → Prop := fun p q => p.2 < q.2 with hQ0
  have hQ0p : t.Pairwise Q0 := tagFrom_pairwise 0 l
  have hQ0a : ∀ a b, Q0 a b → Q0 b a → False := by
    intro a b hab hba
    exact Nat.lt_irrefl _ (Nat.lt_trans hab hba)
  set m4 := stableSortBy (liftC c4) t with hm4
  set m3 := stableSortBy (liftC c3) m4 with hm3
  set m2 := stableSortBy (liftC c2) m3 with hm2
  set m1 := stableSortBy (liftC c1) m2 with hm1
  set clex : β → β → Ordering :=
    fun a b => (c1 a b).then ((c2 a b).then ((c3 a b).then (c4 a b))) with hclex
  have hliftlex : liftC clex =
      fun p q => (liftC c1 p q).then ((liftC c2 p q).then ((liftC c3 p q).then
        (liftC c4 p q))) := rfl
  set s := stableSortBy (liftC clex) t with hs
  set Q4 := stableRel (liftC c4) Q0 with hQ4
  set Q3 := stableRel (liftC c3) Q4 with hQ3
  set Q2 := stableRel (liftC c2) Q3 with hQ2
  set Q1 := stableRel (liftC c1) Q2 with hQ1
  have hp4 : m4.Pairwise Q4 := stableSortBy_pairwise (liftC_laws h4) hQ0p
  have hp3 : m3.Pairwise Q3 := stableSortBy_pairwise (liftC_laws h3) hp4
  have hp2 : m2.Pairwise Q2 := stableSortBy_pairwise (liftC_laws h2) hp3
  have hp1 : m1.Pairwise Q1 := stableSortBy_pairwise (liftC_laws h1) hp2
  have ha4 : ∀ a b, Q4 a b → Q4 b a → False := stableRel_asymm (liftC_laws h4) hQ0a
  have ha3 : ∀ a b, Q3 a b → Q3 b a → False := stableRel_asymm (liftC_laws h3) ha4
  have ha2 : ∀ a b, Q2 a b → Q2 b a → False := stableRel_asymm (liftC_laws h2) ha3
  have ha1 : ∀ a b, Q1 a b → Q1 b a → False := stableRel_asymm (liftC_laws h1) ha2
  have hps : s.Pairwise Q1 := by
    have hpraw : s.Pairwise (stableRel (liftC clex) Q0) :=
      stableSortBy_pairwise
        (liftC_laws (h1.thenLaws (h2.thenLaws (h3.thenLaws h4)))) hQ0p
    refine List.Pairwise.imp ?_ hpraw
    intro p q hpq
    have step1 := (stableRel_then_iff (liftC c1)
      (fun a b => (liftC c2 a b).then ((liftC c3 a b).then (liftC c4 a b))) Q0 p q).mp hpq
    rcases step1 with hlt | ⟨heq, hrest⟩
    · exact Or.inl hlt
    · refine Or.inr ⟨heq, ?_⟩
      have step2 := (stableRel_then_iff (liftC c2)
        (fun a b => (liftC c3 a b).then (liftC c4 a b)) Q0 p q).mp hrest
      rcases step2 with hlt | ⟨heq2, hrest2⟩
      · exact Or.inl hlt
      · exact Or.inr ⟨heq2,
          (stableRel_then_iff (liftC c3) (liftC c4) Q0 p q).mp hrest2⟩
  have hperm : m1.Perm s := by
    have pm : m1.Perm t :=
      (stableSortBy_perm _ _).trans ((stableSortBy_perm _ _).trans
        ((stableSortBy_perm _ _).trans (stableSortBy_perm _ _)))
    exact pm.trans (stableSortBy_perm _ _).symm
  have hteq : m1 = s := sorted_unique Q1 ha1 hperm hp1 hps
  have lhsEq : stableSortBy c1 (stableSortBy c2 (stableSortBy c3 (stableSortBy c4 l))) =
      m1.map Prod.fst := by
    rw [htag, ← stableSortBy_map_fst, ← stableSortBy_map_fst, ← stableSortBy_map_fst,
      ← stableSortBy_map_fst]
  have rhsEq : stableSortBy clex l = s.map Prod.fst := by
    rw [htag, ← stableSortBy_map_fst]
  rw [lhsEq, rhsEq, hteq]

/-!
Faithfulness of the `mkRat`-based arithmetic
-/

theorem addQ_eq (x y : ℚ) : addQ x y = x + y := by
  unfold addQ
  rw [Rat.mkRat_eq_div]
  push_cast
  have hx : (x.den : ℚ) ≠ 0 := by exact_mod_cast x.den_nz
  have hy : (y.den : ℚ) ≠ 0 := by exact_mod_cast y.den_nz
  have hx2 : (x.num : ℚ) = x * x.den := (div_eq_iff hx).mp (Rat.num_div_den x)
  have hy2 : (y.num : ℚ) = y * y.den := (div_eq_iff hy).mp (Rat.num_div_den y)
  field_simp
  rw [hx2, hy2]
  ring

theorem divQN_eq (q : ℚ) (n : Nat) : divQN q n = q / (n : ℚ) := by
  unfold divQN
  rw [Rat.mkRat_eq_div]
  push_cast
  rw [div_mul_eq_div_div, Rat.num_div_den]

theorem mkRatN_eq (a b : Nat) : mkRatN a b = (a : ℚ) / (b : ℚ) := by
  unfold mkRatN
  rw [Rat.mkRat_eq_div]
  push_cast
  rfl

/-- `mwpQ` is the spec's formula verbatim. -/
theorem mwpQ_eq (p : Player) :
    mwpQ p = if p.matches_played = 0 then 1/3
      else max (1/3) ((p.match_points : ℚ) / (3 * (p.matches_played : ℚ))) := by
  unfold mwpQ
  rw [mkRatN_eq, mkRatN_eq]
  push_cast
  norm_num

/-- `gwpQ` is the spec's formula verbatim. -/
theorem gwpQ_eq (p : Player) :
    gwpQ p = if p.games_played = 0 then 1/3
      else max (1/3) ((p.game_points : ℚ) / (3 * (p.games_played : ℚ))) := by
  unfold gwpQ
  rw [mkRatN_eq, mkRatN_eq]
  push_cast
  norm_num

theorem foldl_addQ (f : Nat → ℚ) :
    ∀ (l : List Nat) (acc : ℚ),
      l.foldl (fun a o => addQ a (f o)) acc = l.foldl (fun a o => a + f o) acc := by
  intro l
  induction l with
  | nil => intro acc; rfl
  | cons x xs ih =>
      intro acc
      show xs.foldl (fun a o => addQ a (f o)) (addQ acc (f x)) = _
      rw [ih, addQ_eq]
      rfl

/-- `omwpVal` is the sum-divided-by-count of the source. -/
theorem omwpVal_eq (σ : Heap) (p : Player) :
    omwpVal σ p =
      (p.opponents.foldl (fun acc o => acc + mwpQ (getP σ o)) 0) /
        (p.opponents.length : ℚ) := by
  unfold omwpVal
  rw [divQN_eq, foldl_addQ]

/-- `ogwpVal` is the sum-divided-by-count of the source. -/
theorem ogwpVal_eq (σ : Heap) (p : Player) :
    ogwpVal σ p =
      (p.opponents.foldl (fun acc o => acc + gwpQ (getP σ o)) 0) /
        (p.opponents.length : ℚ) := by
  unfold ogwpVal
  rw [divQN_eq, foldl_addQ]

/-!
Sort congruence (comparators that agree on the elements sort alike)
-/

theorem insRev_congr {β : Type} {c c2 : β → β → Ordering} {x : β} :
    ∀ {racc : List β}, (∀ y ∈ racc, c y x = c2 y x) →
      insRev c x racc = insRev c2 x racc := by
  intro racc
  induction racc with
  | nil => intro _; rfl
  | cons y ys ih =>
      intro h
      show (if c y x = .gt then y :: insRev c x ys else x :: y :: ys) =
        (if c2 y x = .gt then y :: insRev c2 x ys else x :: y :: ys)
      rw [h y (List.mem_cons_self y ys)]
      split_ifs with hgt
      · rw [ih (fun z hz => h z (List.mem_cons_of_mem y hz))]
      · rfl

theorem sortAux_congr {β : Type} {c c2 : β → β → Ordering} {S : List β}
    (hS : ∀ a ∈ S, ∀ b ∈ S, c a b = c2 a b) :
    ∀ (rest racc : List β), (∀ x ∈ racc, x ∈ S) → (∀ x ∈ rest, x ∈ S) →
      sortAux c racc rest = sortAux c2 racc rest := by
  intro rest
  induction rest with
  | nil => intro racc _ _; rfl
  | cons x xs ih =>
      intro racc hracc hrest
      have hx : x ∈ S := hrest x (List.mem_cons_self x xs)
      have hins : insRev c x racc = insRev c2 x racc :=
        insRev_congr (fun y hy => hS y (hracc y hy) x hx)
      show sortAux c (insRev c x racc) xs = sortAux c2 (insRev c2 x racc) xs
      rw [← hins]
      refine ih (insRev c x racc) ?_ ?_
      · intro z hz
        rcases insRev_mem hz with rfl | hz2
        · exact hx
        · exact hracc z hz2
      · intro z hz
        exact hrest z (List.mem_cons_of_mem x hz)

theorem stableSortBy_congr {β : Type} {c c2 : β → β → Ordering} {l : List β}
    (h : ∀ a ∈ l, ∀ b ∈ l, c a b = c2 a b) :
    stableSortBy c l = stableSortBy c2 l := by
  unfold stableSortBy
  rw [sortAux_congr h l [] (by simp) (fun x hx => hx)]

/-- C8 (amended): when every competitor in the list has a nonempty opponent
history — so no comparator ever sees the NaN case that
`partial_cmp(..).unwrap_or(Equal)` maps to `Equal` — the four successive
stable sorts of `ranking()` (by OGWP, GWP, OMWP, match points, each
descending) produce exactly the single stable sort under the lexicographic
comparator on `(match_points, OMWP, GWP, OGWP)` all descending; ties on all
four keys keep the order of the input list (the sorts are stable, so this
is the stability of `stableSortBy`). -/
theorem c8_cascade_eq_lex_sort (σ : Heap) (l : List Nat)
    (hne : ∀ i ∈ l, (getP σ i).opponents ≠ []) :
    rankingSorts σ l = rankingLexModel σ l := by
  have hog : ∀ i ∈ l, ogwpOpt σ (getP σ i) = some (ogwpVal σ (getP σ i)) := by
    intro i hi
    unfold ogwpOpt
    rw [if_neg]
    intro h0
    exact hne i hi (List.length_eq_zero.mp h0)
  have hom : ∀ i ∈ l, omwpOpt σ (getP σ i) = some (omwpVal σ (getP σ i)) := by
    intro i hi
    unfold omwpOpt
    rw [if_neg]
    intro h0
    exact hne i hi (List.length_eq_zero.mp h0)
  have step4 : stableSortBy
      (fun a b => pcmp (ogwpOpt σ (getP σ b)) (ogwpOpt σ (getP σ a))) l =
      stableSortBy (fun a b => cmpLin (ogwpVal σ (getP σ b)) (ogwpVal σ (getP σ a))) l :=
    stableSortBy_congr (fun a ha b hb => by rw [hog b hb, hog a ha]; rfl)
  set L4 := stableSortBy
    (fun a b => cmpLin (ogwpVal σ (getP σ b)) (ogwpVal σ (getP σ a))) l with hL4
  set L3 := stableSortBy (fun a b => cmpLin (gwpQ (getP σ b)) (gwpQ (getP σ a))) L4 with hL3
  have hmem4 : ∀ x ∈ L4, x ∈ l := fun x hx => ((stableSortBy_perm _ l).mem_iff).mp hx
  have hmem3 : ∀ x ∈ L3, x ∈ l :=
    fun x hx => hmem4 x (((stableSortBy_perm _ L4).mem_iff).mp hx)
  have step2 : stableSortBy
      (fun a b => pcmp (omwpOpt σ (getP σ b)) (omwpOpt σ (getP σ a))) L3 =
      stableSortBy (fun a b => cmpLin (omwpVal σ (getP σ b)) (omwpVal σ (getP σ a))) L3 :=
    stableSortBy_congr
      (fun a ha b hb => by rw [hom b (hmem3 b hb), hom a (hmem3 a ha)]; rfl)
  have lhs : rankingSorts σ l =
      stableSortBy (fun a b => cmpLin (getP σ b).match_points (getP σ a).match_points)
        (stableSortBy (fun a b => cmpLin (omwpVal σ (getP σ b)) (omwpVal σ (getP σ a)))
          (stableSortBy (fun a b => cmpLin (gwpQ (getP σ b)) (gwpQ (getP σ a)))
            (stableSortBy (fun a b =>
              cmpLin (ogwpVal σ (getP σ b)) (ogwpVal σ (getP σ a))) l))) := by
    show stableSortBy (fun a b => cmpLin (getP σ b).match_points (getP σ a).match_points)
        (stableSortBy (fun a b => pcmp (omwpOpt σ (getP σ b)) (omwpOpt σ (getP σ a)))
          (stableSortBy (fun a b => cmpLin (gwpQ (getP σ b)) (gwpQ (getP σ a)))
            (stableSortBy (fun a b =>
              pcmp (ogwpOpt σ (getP σ b)) (ogwpOpt σ (getP σ a))) l))) = _
    rw [step4, ← hL4, ← hL3, step2]
  have hcas := cascade4_eq_lex
    (fun a b => cmpLin (getP σ b).match_points (getP σ a).match_points)
    (fun a b => cmpLin (omwpVal σ (getP σ b)) (omwpVal σ (getP σ a)))
    (fun a b => cmpLin (gwpQ (getP σ b)) (gwpQ (getP σ a)))
    (fun a b => cmpLin (ogwpVal σ (getP σ b)) (ogwpVal σ (getP σ a)))
    (cmpLaws_key (fun i => (getP σ i).match_points))
    (cmpLaws_key (fun i => omwpVal σ (getP σ i)))
    (cmpLaws_key (fun i => gwpQ (getP σ i)))
    (cmpLaws_key (fun i => ogwpVal σ (getP σ i)))
    l
  have rhs : rankingLexModel σ l =
      stableSortBy (fun a b =>
        (cmpLin (getP σ b).match_points (getP σ a).match_points).then
          ((cmpLin (omwpVal σ (getP σ b)) (omwpVal σ (getP σ a))).then
            ((cmpLin (gwpQ (getP σ b)) (gwpQ (getP σ a))).then
              (cmpLin (ogwpVal σ (getP σ b)) (ogwpVal σ (getP σ a)))))) l := by
    unfold rankingLexModel
    refine stableSortBy_congr (fun a ha b hb => ?_)
    rw [hom b hb, hom a ha, hog b hb, hog a ha]
    rfl
  rw [lhs, ← hL4, ← hL3, hcas, rhs]

/-- Witness for the amended C8 on the concrete roster `heapC7`, handles 1
and 2 (both with nonempty histories): the cascade and the lexicographic
sort agree. -/
theorem c8_cascade_eq_lex_sort_witness :
    (∀ i ∈ [1, 2], (getP heapC7 i).opponents ≠ []) ∧
    rankingSorts heapC7 [1, 2] = rankingLexModel heapC7 [1, 2] :=
  ⟨by decide, c8_cascade_eq_lex_sort heapC7 [1, 2] (by decide)⟩

/-- C8 (counterexample): with a competitor whose opponent history is empty
(handle 0 of `heapC8`, whose OMWP/OGWP are NaN and compare `Equal` to
everything), the four-sort cascade of `ranking()` and the single stable
lexicographic sort give different orders: `[2, 0, 1]` versus `[0, 1, 2]`. -/
theorem c8_cascade_ne_lex_sort_with_empty_history :
    rankingSorts heapC8 [0, 1, 2] = [2, 0, 1] ∧
    rankingLexModel heapC8 [0, 1, 2] = [0, 1, 2] ∧
    rankingSorts heapC8 [0, 1, 2] ≠ rankingLexModel heapC8 [0, 1, 2] ∧
    (getP heapC8 0).opponents = [] := by
  refine ⟨by decide, by decide, ?_, by decide⟩
  intro h
  have h2 : ([2, 0, 1] : List Nat) = [0, 1, 2] := by
    have e1 : rankingSorts heapC8 [0, 1, 2] = [2, 0, 1] := by decide
    have e2 : rankingLexModel heapC8 [0, 1, 2] = [0, 1, 2] := by decide
    rw [← e1, ← e2]
    exact h
  simp at h2

/-- C7 (counterexample): `ranking()` does *not* substitute the spec's `1/3`
sentinel for the opponent averages of a competitor with empty history — it
evaluates the division by the zero opponent count, producing NaN (`none`),
which `partial_cmp(..).unwrap_or(Equal)` folds to `Equal` inside the
comparators.  On `heapC7` (handle 0 a byed player with empty history) the
code's ranking `[0, 2, 1]` differs from the sentinel-based ranking
`[2, 1, 0]` the claim describes. -/
theorem c7_ranking_ne_sentinel_ranking :
    (getP heapC7 0).opponents = [] ∧
    omwpOpt heapC7 (getP heapC7 0) = none ∧
    pcmp (omwpOpt heapC7 (getP heapC7 0)) (omwpOpt heapC7 (getP heapC7 1)) = .eq ∧
    rankingSorts heapC7 [0, 1, 2] = [0, 2, 1] ∧
    rankingSentinelSpec heapC7 [0, 1, 2] = [2, 1, 0] ∧
    rankingSorts heapC7 [0, 1, 2] ≠ rankingSentinelSpec heapC7 [0, 1, 2] := by
  refine ⟨by decide, by decide, by decide, by decide, by decide, ?_⟩
  intro h
  have h2 : ([0, 2, 1] : List Nat) = [2, 1, 0] := by
    have e1 : rankingSorts heapC7 [0, 1, 2] = [0, 2, 1] := by decide
    have e2 : rankingSentinelSpec heapC7 [0, 1, 2] = [2, 1, 0] := by decide
    rw [← e1, ← e2]
    exact h
  simp at h2

/-- C7 (amended): for a competitor with empty opponent history the code
evaluates `sum / 0` — modelled as the NaN value `none` — and that value
does enter the ranking comparators, where `unwrap_or(Equal)` makes every
comparison against it yield `Equal`; no sentinel is substituted, but no
failure occurs either.  For a competitor with nonempty history the
averages are always defined (no other division by zero exists). -/
theorem c7_empty_history_nan_compares_equal (σ : Heap) (p : Player)
    (hp : p.opponents = []) :
    omwpOpt σ p = none ∧ ogwpOpt σ p = none ∧
    (∀ o : Option ℚ, pcmp (omwpOpt σ p) o = .eq ∧ pcmp o (omwpOpt σ p) = .eq) ∧
    (∀ q : Player, q.opponents ≠ [] →
      omwpOpt σ q = some (omwpVal σ q) ∧ ogwpOpt σ q = some (ogwpVal σ q)) := by
  have hlen : p.opponents.length = 0 := by rw [hp]; rfl
  have hom : omwpOpt σ p = none := by unfold omwpOpt; rw [if_pos hlen]
  have hog : ogwpOpt σ p = none := by unfold ogwpOpt; rw [if_pos hlen]
  refine ⟨hom, hog, ?_, ?_⟩
  · intro o
    rw [hom]
    cases o <;> exact ⟨rfl, rfl⟩
  · intro q hq
    have hlq : ¬q.opponents.length = 0 := fun h0 => hq (List.length_eq_zero.mp h0)
    constructor
    · unfold omwpOpt; rw [if_neg hlq]
    · unfold ogwpOpt; rw [if_neg hlq]

/-- Witness for the amended C7 at handle 0 of `heapC7`. -/
theorem c7_empty_history_nan_compares_equal_witness :
    (getP heapC7 0).opponents = [] ∧
    omwpOpt heapC7 (getP heapC7 0) = none ∧
    pcmp (omwpOpt heapC7 (getP heapC7 0)) (omwpOpt heapC7 (getP heapC7 1)) = .eq := by
  have hc := c7_empty_history_nan_compares_equal heapC7 (getP heapC7 0) (by decide)
  exact ⟨by decide, hc.1, (hc.2.2.1 (omwpOpt heapC7 (getP heapC7 1))).1⟩
